import Mathlib

/-!
# Verification of the tile-event registry and push protocol

Shallow embedding of `src/interactable_objects/push.js` and
`src/base/tile_events/TileEvent.ts` from the goldensun_html5 repository.
JavaScript numbers holding tile/pixel coordinates are modelled as `Int`,
JavaScript arrays as `List`, JavaScript objects used as string-keyed maps as
association lists (`aset`/`alookup`/`adelete` mirror `obj[k] = v`, `k in obj` /
`obj[k]`, and `delete obj[k]`).  Registry buckets hold event ids; the source
stores object references and compares them through their `id` field, so this
is observation-equivalent.  Helper functions that the source imports from
`utils.js` (absent from the provided sources) are modelled from the spec and
marked as such in their doc comments.
-/

namespace GoldenSun

/-- The eight elementary/composite directions used by the game
(`utils.js` direction values; the four cardinals plus diagonals). -/
inductive Direction where
  | up | down | left | right
  | up_left | up_right | down_left | down_right
deriving DecidableEq, Repr

/-- The four cardinal directions, in the order used by the
`["up", "down", "left", "right"].includes(...)` check of `normal_push`. -/
def cardinal_directions : List Direction :=
  [Direction.up, Direction.down, Direction.left, Direction.right]

/-- Modelled from the spec: `split_direction` from `utils.js` (absent from the
provided sources) — "given a (possibly composite) direction, decompose into
elementary directions"; "splitting a pure cardinal direction returns exactly
that direction". A diagonal splits into its two cardinal components. -/
def split_direction : Direction → List Direction
  | Direction.up_left => [Direction.up, Direction.left]
  | Direction.up_right => [Direction.up, Direction.right]
  | Direction.down_left => [Direction.down, Direction.left]
  | Direction.down_right => [Direction.down, Direction.right]
  | d => [d]

/-- Modelled from the spec: `get_opposite_direcion` from `utils.js` (absent
from the provided sources) — the "opposite-direction lookup" of the
Directional Geometry helpers. -/
def get_opposite_direcion : Direction → Direction
  | Direction.up => Direction.down
  | Direction.down => Direction.up
  | Direction.left => Direction.right
  | Direction.right => Direction.left
  | Direction.up_left => Direction.down_right
  | Direction.up_right => Direction.down_left
  | Direction.down_left => Direction.up_right
  | Direction.down_right => Direction.up_left

/-- One entry produced by the surrounding-tile enumeration: a tile coordinate
together with the offset direction from the centre. -/
structure Surrounding where
  x : Int
  y : Int
  direction : Direction
deriving DecidableEq, Repr

/-- Modelled from the spec: `get_surroundings(x, y, false, radius)` from
`utils.js` (absent from the provided sources) — "surrounding-tile
enumeration"; with diagonals disabled (the only mode `push.js` uses) it
enumerates, for every shift `1 ≤ s ≤ radius`, the four cardinal neighbours at
distance `s`, tagged with their offset direction.  The spec's scenario places
`(2,3)` in the radius-2 surroundings of `(3,3)` with offset direction `left`,
which this enumeration satisfies. -/
def get_surroundings (x y : Int) (radius : Nat) : List Surrounding :=
  (List.range radius).flatMap fun i =>
    let s : Int := (i : Int) + 1
    [⟨x - s, y, Direction.left⟩, ⟨x + s, y, Direction.right⟩,
     ⟨x, y - s, Direction.up⟩, ⟨x, y + s, Direction.down⟩]

/-- `event_types` enum from `TileEvent.ts`. -/
inductive event_types where
  | climb | speed | teleport | jump | step | collision | slider
  | event_trigger | ice_slide
deriving DecidableEq, Repr

/-- A `TileEvent` (`TileEvent.ts`).  The `activeNegOne` field models the
JavaScript property `"-1"` of the `active` array: `activate_at`/
`deactivate_at` write `this.active[this.activation_directions.indexOf(d)]`,
and when `indexOf` returns `-1` the write lands on that property, which
subsequent reads `this.active[-1]` observe.  A freshly constructed event has
no such property (`none`). -/
structure TileEvent where
  type : event_types
  x : Int
  y : Int
  location_key : String
  id : Nat
  activation_collision_layers : List Int
  activation_directions : List Direction
  dynamic : Bool
  active : List Bool
  activeNegOne : Option Bool
  affected_by_reveal : List Bool
deriving DecidableEq, Repr

/-- `TileEvent.get_location_key(x, y)` — the template literal `` `${x}_${y}` ``. -/
def TileEvent.get_location_key (x y : Int) : String :=
  toString x ++ "_" ++ toString y

/-- JavaScript `Array.prototype.indexOf`: index of the first occurrence,
`none` when absent (the source observes `-1`; the `none` case is routed to
the `"-1"` property by the callers below). -/
def idx_of : List Direction → Direction → Option Nat
  | [], _ => none
  | a :: rest, d => if d = a then some 0 else (idx_of rest d).map (· + 1)

/-- JavaScript truthiness of a possibly-missing boolean property
(`undefined` and `false` are falsy). -/
def truthy : Option Bool → Bool
  | some b => b
  | none => false

/-- The read `this.active[this.activation_directions.indexOf(d)]`. -/
def TileEvent.read_active_at (e : TileEvent) (d : Direction) : Option Bool :=
  match idx_of e.activation_directions d with
  | some j => e.active[j]?
  | none => e.activeNegOne

/-- The write `this.active[this.activation_directions.indexOf(d)] = v`
(index `-1` lands on the array's `"-1"` property). -/
def TileEvent.write_active_at (e : TileEvent) (d : Direction) (v : Bool) : TileEvent :=
  match idx_of e.activation_directions d with
  | some j => { e with active := e.active.set j v }
  | none => { e with activeNegOne := some v }

/-- `TileEvent.is_active(direction)` (`TileEvent.ts` lines 83–91): split the
direction and return true as soon as one component's flag reads truthy. -/
def TileEvent.is_active (e : TileEvent) (d : Direction) : Bool :=
  (split_direction d).any fun pd => truthy (e.read_active_at pd)

/-- `TileEvent.activate_at(direction)` (`TileEvent.ts` lines 93–95). -/
def TileEvent.activate_at (e : TileEvent) (d : Direction) : TileEvent :=
  e.write_active_at d true

/-- `TileEvent.deactivate_at(direction)` (`TileEvent.ts` lines 97–99). -/
def TileEvent.deactivate_at (e : TileEvent) (d : Direction) : TileEvent :=
  e.write_active_at d false

/-- `TileEvent.activate()`: `this.active = this.active.map(() => true)`.
The reassignment replaces the array, so the `"-1"` property is dropped. -/
def TileEvent.activate (e : TileEvent) : TileEvent :=
  { e with active := e.active.map fun _ => true, activeNegOne := none }

/-- `TileEvent.deactivate()`: `this.active = this.active.map(() => false)`. -/
def TileEvent.deactivate (e : TileEvent) : TileEvent :=
  { e with active := e.active.map fun _ => false, activeNegOne := none }

/-- The process-wide identity registry (`TileEvent.id_incrementer` and
`TileEvent.events` static fields). -/
structure EventIdentityRegistry where
  id_incrementer : Nat
  events : List (Nat × TileEvent)
deriving DecidableEq, Repr

/-- `TileEvent.reset()` (`TileEvent.ts` lines 125–128). -/
def TileEvent.reset : EventIdentityRegistry :=
  { id_incrementer := 0, events := [] }

/-- JavaScript object write `obj[k] = v`: replace the value of an existing key
in place, or append a fresh key at the end (insertion order). -/
def aset {A B : Type} [DecidableEq A] : List (A × B) → A → B → List (A × B)
  | [], k, v => [(k, v)]
  | (k', v') :: rest, k, v =>
    if k' = k then (k, v) :: rest else (k', v') :: aset rest k v

/-- JavaScript object read `obj[k]` (`undefined` when the key is absent,
`k in obj` is `(alookup m k).isSome`). -/
def alookup {A B : Type} [DecidableEq A] : List (A × B) → A → Option B
  | [], _ => none
  | (k', v') :: rest, k => if k' = k then some v' else alookup rest k

/-- JavaScript `delete obj[k]`. -/
def adelete {A B : Type} [DecidableEq A] : List (A × B) → A → List (A × B)
  | [], _ => []
  | (k', v') :: rest, k =>
    if k' = k then rest else (k', v') :: adelete rest k

/-- Normalized `TileEvent` constructor arguments (`TileEvent.ts` lines 36–48).
The JavaScript `undefined`-defaulting of lines 56–76 is applied by callers;
fields arrive here already coerced to their array forms. -/
structure TileEventArgs where
  type : event_types
  x : Int
  y : Int
  activation_directions : List Direction
  activation_collision_layers : List Int
  dynamic : Bool
  active : List Bool
  affected_by_reveal : List Bool
deriving DecidableEq, Repr

/-- The `TileEvent` constructor (`TileEvent.ts` lines 49–78): derive
`location_key` from `(x, y)`, take `id` from the incrementer
(`this.id = TileEvent.id_incrementer++`), and register the event
(`TileEvent.events[this.id] = this`). -/
def TileEvent.construct (r : EventIdentityRegistry) (a : TileEventArgs) :
    EventIdentityRegistry × TileEvent :=
  let e : TileEvent :=
    { type := a.type
      x := a.x
      y := a.y
      location_key := TileEvent.get_location_key a.x a.y
      id := r.id_incrementer
      activation_collision_layers := a.activation_collision_layers
      activation_directions := a.activation_directions
      dynamic := a.dynamic
      active := a.active
      activeNegOne := none
      affected_by_reveal := a.affected_by_reveal }
  ({ id_incrementer := r.id_incrementer + 1, events := aset r.events e.id e }, e)

/-- Construct a batch of events in order, returning the ids they received. -/
def construct_all : EventIdentityRegistry → List TileEventArgs → EventIdentityRegistry × List Nat
  | r, [] => (r, [])
  | r, a :: rest =>
    let p := TileEvent.construct r a
    let q := construct_all p.1 rest
    (q.1, p.2.id :: q.2)

/-- Modelled from the spec: the map-loading component (absent from the
provided sources) performs the identity-registry reset "exactly once per map
(re)load" and then constructs the map's events. -/
def map_load (args : List TileEventArgs) : EventIdentityRegistry × List Nat :=
  construct_all TileEvent.reset args

/-- The mutable world state the push protocol touches: the event store
(`TileEvent` objects, addressed by id — the source holds direct references)
and the per-map location registry `maps[data.map_name].events`. -/
structure GameState where
  store : List (Nat × TileEvent)
  registry : List (String × List Nat)
deriving DecidableEq, Repr

/-- One iteration of the inner loop of `push.js` lines 87–95: the event with
id `i` is deactivated at direction `d` when it is a non-dynamic jump event
whose activation collision layers contain the target layer. -/
def deactivate_jump_step (target_layer : Int) (d : Direction)
    (st : List (Nat × TileEvent)) (i : Nat) : List (Nat × TileEvent) :=
  match alookup st i with
  | none => st
  | some ev =>
    if ev.type = event_types.jump ∧ target_layer ∈ ev.activation_collision_layers ∧
        ev.dynamic = false then
      aset st i (ev.deactivate_at d)
    else st

/-- Inner loop of `push.js` lines 87–95: for one surrounding tile of the old
position, deactivate every non-dynamic jump event on the target layer at the
direction opposite to the tile's offset direction. -/
def deactivate_surrounding_jumps (target_layer : Int) (s : Surrounding) (g : GameState) :
    GameState :=
  match alookup g.registry (TileEvent.get_location_key s.x s.y) with
  | none => g
  | some bucket =>
    { g with
      store := bucket.foldl
        (deactivate_jump_step target_layer (get_opposite_direcion s.direction)) g.store }

/-- `push.js` lines 82–97: scan the radius-2 surroundings of the old position
and deactivate stale jump triggers. -/
def deactivate_old_surroundings (target_layer : Int) (old_x old_y : Int) (g : GameState) :
    GameState :=
  (get_surroundings old_x old_y 2).foldl
    (fun g s => deactivate_surrounding_jumps target_layer s g) g

/-- Modelled from the spec: one per-event iteration of
`JumpEvent.active_jump_surroundings` (absent from the provided sources) —
"activate any Jump-type event there whose target collision layer matches". -/
def activate_jump_step (target_layer : Int) (d : Direction)
    (st : List (Nat × TileEvent)) (i : Nat) : List (Nat × TileEvent) :=
  match alookup st i with
  | none => st
  | some ev =>
    if ev.type = event_types.jump ∧ target_layer ∈ ev.activation_collision_layers then
      aset st i (ev.activate_at d)
    else st

/-- Modelled from the spec: `JumpEvent.active_jump_surroundings` (absent from
the provided sources) — re-enables jump triggers around the new position;
mirrors the deactivation scan, activating at the opposite of the offset
direction.  It touches only `active` flags, never coordinates, keys or the
registry. -/
def active_jump_surroundings (target_layer : Int) (surroundings : List Surrounding)
    (g : GameState) : GameState :=
  surroundings.foldl (fun g s =>
    match alookup g.registry (TileEvent.get_location_key s.x s.y) with
    | none => g
    | some bucket =>
      { g with
        store := bucket.foldl
          (activate_jump_step target_layer (get_opposite_direcion s.direction)) g.store }) g

/-- `push.js` lines 62–67: filter the bucket at `old_key` to exclude the id
`eid` and store it back; when the filtered bucket is empty, delete the key. -/
def reloc_remove (reg : List (String × List Nat)) (old_key : String) (eid : Nat) :
    List (String × List Nat) :=
  let filtered := ((alookup reg old_key).getD []).filter (fun i => i ≠ eid)
  let reg1 := aset reg old_key filtered
  if filtered = [] then adelete reg1 old_key else reg1

/-- `push.js` lines 76–79: create the bucket at `new_key` when absent, then
push the id `eid` onto it. -/
def reloc_insert (reg : List (String × List Nat)) (new_key : String) (eid : Nat) :
    List (String × List Nat) :=
  let reg3 := if alookup reg new_key = none then aset reg new_key [] else reg
  aset reg3 new_key (((alookup reg3 new_key).getD []) ++ [eid])

/-- The registry/store core of the per-event relocation loop (`push.js`
lines 62–79), for the already looked-up event `e`: remove the event from its
current bucket by id (deleting the key when the bucket empties), shift the
coordinates, recompute the location key, and insert into the new bucket
(creating it when absent). -/
def relocate_core (shift_x shift_y : Int) (g : GameState) (eid : Nat) (e : TileEvent) :
    GameState :=
  let new_x := e.x + shift_x
  let new_y := e.y + shift_y
  let new_key := TileEvent.get_location_key new_x new_y
  let e2 := { e with x := new_x, y := new_y, location_key := new_key }
  { store := aset g.store eid e2,
    registry := reloc_insert (reloc_remove g.registry e.location_key eid) new_key eid }

/-- Body of the per-event relocation loop of `fire_push_movement`
(`push.js` lines 60–98): the registry/store core, then the jump-trigger
reconciliation around the new and the old position. -/
def relocate_event (shift_x shift_y : Int) (target_layer : Int) (g : GameState) (eid : Nat) :
    GameState :=
  match alookup g.store eid with
  | none => g
  | some e =>
    let g2 := relocate_core shift_x shift_y g eid e
    let g3 := active_jump_surroundings target_layer
      (get_surroundings (e.x + shift_x) (e.y + shift_y) 2) g2
    deactivate_old_surroundings target_layer e.x e.y g3

/-- The pushed interactable object (fields of `interactable_object` that
`push.js` reads): visual anchor, tile position, owned events (`get_events()`,
as ids) and the layer data combined into the target layer. -/
structure InteractableObject where
  sprite_x : Int
  sprite_y : Int
  current_x : Int
  current_y : Int
  object_events : List Nat
  collide_layer_shift : Int
  base_collider_layer : Int
deriving DecidableEq, Repr

/-- The value assigned to `data.actual_action` on a normal push. -/
def push_action : String := "push"

/-- The fields of `data` that `push.js` reads or writes. -/
structure PushData where
  game : GameState
  hero_x : Int
  hero_y : Int
  trying_to_push : Bool
  trying_to_push_direction : Direction
  actual_direction : Direction
  casting_psynergy : Bool
  jumping : Bool
  pushing : Bool
  actual_action : Option String
  push_timer : Option Unit
deriving DecidableEq

/-- Direction validation (`push.js` lines 21–31): the isometric limits and
the boundary-inclusive 2×2 comparison chain classifying the actor's position
into a quadrant.  `none` is the fall-through where `expected_position` stays
`undefined` (shown unreachable in `classify_push_quadrant_spec`). -/
def classify_push_quadrant (hero_x hero_y sprite_x sprite_y : Int) : Option Direction :=
  let positive_limit := hero_x + (-sprite_y - sprite_x)
  let negative_limit := -hero_x + (-sprite_y + sprite_x)
  if -hero_y ≥ positive_limit ∧ -hero_y ≥ negative_limit then some Direction.down
  else if -hero_y ≤ positive_limit ∧ -hero_y ≥ negative_limit then some Direction.left
  else if -hero_y ≤ positive_limit ∧ -hero_y ≤ negative_limit then some Direction.up
  else if -hero_y ≥ positive_limit ∧ -hero_y ≤ negative_limit then some Direction.right
  else none

/-- The `switch (data.trying_to_push_direction)` of `push.js` lines 41–58:
the unit shift applied to event coordinates; any non-cardinal value falls
through every `case`, leaving the shift `(0, 0)`. -/
def event_shift : Direction → Int × Int
  | Direction.up => (0, -1)
  | Direction.down => (0, 1)
  | Direction.left => (-1, 0)
  | Direction.right => (1, 0)
  | _ => (0, 0)

/-- `fire_push_movement` (`push.js` lines 18–135), its synchronous data part:
direction validation, the per-event relocation loop, and the object position
update.  The physics pause/resume and the tween barrier are modelled by the
trace functions below; they touch neither the registry nor the events. -/
def fire_push_movement (target_only : Bool) (data : PushData) (io : InteractableObject) :
    PushData × InteractableObject :=
  let expected := if target_only then none
                  else classify_push_quadrant data.hero_x data.hero_y io.sprite_x io.sprite_y
  if target_only ∨ expected = some data.trying_to_push_direction then
    let data1 := if target_only then data
                 else { data with pushing := true, actual_action := some push_action }
    let sh := event_shift data.trying_to_push_direction
    let target_layer := io.collide_layer_shift + io.base_collider_layer
    let game2 := io.object_events.foldl (relocate_event sh.1 sh.2 target_layer) data1.game
    ({ data1 with game := game2 },
     { io with current_x := io.current_x + sh.1, current_y := io.current_y + sh.2 })
  else (data, io)

/-- `normal_push` (`push.js` lines 6–12): guard the five entry conditions,
then unconditionally consume the request flag and the timer. -/
def normal_push (data : PushData) (io : InteractableObject) : PushData × InteractableObject :=
  let r := if data.trying_to_push = true ∧ data.trying_to_push_direction ∈ cardinal_directions ∧
              data.trying_to_push_direction = data.actual_direction ∧
              data.casting_psynergy = false ∧ data.jumping = false
           then fire_push_movement false data io
           else (data, io)
  ({ r.1 with trying_to_push := false, push_timer := none }, r.2)

/-- `target_only_push` (`push.js` lines 14–16). -/
def target_only_push (data : PushData) (io : InteractableObject) : PushData × InteractableObject :=
  fire_push_movement true data io

/-- One public push invocation, for stating preservation across sequences. -/
structure PushCall where
  target_only : Bool
  data : PushData
  io : InteractableObject

/-- Run one push invocation against a game state (the scalar fields come from
the call, the game state is threaded). -/
def run_push (g : GameState) (c : PushCall) : GameState :=
  if c.target_only then (target_only_push { c.data with game := g } c.io).1.game
  else (normal_push { c.data with game := g } c.io).1.game

/-- Run a sequence of push invocations. -/
def run_pushes (g : GameState) (cs : List PushCall) : GameState :=
  cs.foldl run_push g

/-- Events of the execution-order model of a successful
`fire_push_movement`. -/
inductive PushAction where
  | pause
  | relocate (eid : Nat)
  | schedule (i : Nat)
  | complete (i : Nat)
  | clearPushing
  | resume
  | pushEndHook
deriving DecidableEq, Repr

/-- `push.js` lines 99–102: the bodies scheduled to move — the object's body,
plus the shadow and the hero's body when not in target-only mode. -/
def push_sprite_count (target_only : Bool) : Nat :=
  if target_only then 1 else 3

/-- The synchronous prefix of a successful push (`push.js` lines 38–126):
`game.physics.p2.pause()`, then the relocation loop over the owned events,
then one tween scheduled per moving body. -/
def push_sync_trace (target_only : Bool) (object_events : List Nat) : List PushAction :=
  PushAction.pause :: (object_events.map PushAction.relocate ++
    (List.range (push_sprite_count target_only)).map PushAction.schedule)

/-- A full execution trace of a successful push: the synchronous prefix, then
the tween completions in an arbitrary arrival order `order`, then the
`Promise.all(promises).then(...)` continuation (`push.js` lines 127–133):
clear `data.pushing`, `game.physics.p2.resume()`, and the `push_end` hook
when supplied.  JavaScript's `Promise.all` runs the continuation only once
every promise has resolved, so the continuation follows all completions;
theorems quantify over every arrival order. -/
def push_full_trace (target_only : Bool) (object_events : List Nat) (has_push_end : Bool)
    (order : List Nat) : List PushAction :=
  push_sync_trace target_only object_events ++ order.map PushAction.complete ++
    [PushAction.clearPushing, PushAction.resume] ++
    (if has_push_end then [PushAction.pushEndHook] else [])

/-- Well-formedness of the world state: unique store/registry keys, events
registered under their own id, non-empty buckets, bucket members live, every
event present in the bucket of its `location_key`, and `location_key`
coherent with `(x, y)`.  These hold of map-load states and are preserved by
the push protocol. -/
structure RegistryWF (g : GameState) : Prop where
  store_nodup : (g.store.map Prod.fst).Nodup
  store_id : ∀ p ∈ g.store, p.2.id = p.1
  reg_nodup : (g.registry.map Prod.fst).Nodup
  buckets_nonempty : ∀ p ∈ g.registry, p.2 ≠ []
  bucket_ids_live : ∀ p ∈ g.registry, ∀ i ∈ p.2, ∃ e, alookup g.store i = some e
  events_bucketed : ∀ p ∈ g.store,
    ∃ b, alookup g.registry p.2.location_key = some b ∧ p.1 ∈ b
  keys_coherent : ∀ p ∈ g.store,
    p.2.location_key = TileEvent.get_location_key p.2.x p.2.y

/-- Decimal decoder used to prove the location-key codec injective. -/
def read_digits (l : List Char) : Nat :=
  l.foldl (fun a c => a * 10 + (c.toNat - 48)) 0

/-- The observable fact that the event with id `i` reads as inactive at
direction `d` (`is_active`-style truthiness of the flag read). -/
def deactivated_at (st : List (Nat × TileEvent)) (i : Nat) (d : Direction) : Prop :=
  ∃ ev', alookup st i = some ev' ∧ truthy (ev'.read_active_at d) = false

/-- Concrete jump event used by the witnesses: sits at tile `(3, 3)`. -/
def wEvent : TileEvent :=
  { type := event_types.jump
    x := 3
    y := 3
    location_key := TileEvent.get_location_key 3 3
    id := 0
    activation_collision_layers := [1]
    activation_directions := [Direction.up, Direction.down, Direction.left, Direction.right]
    dynamic := false
    active := [true, true, true, true]
    activeNegOne := none
    affected_by_reveal := [false, false, false, false] }

/-- Concrete well-formed world state for the witnesses: one event, one
bucket. -/
def wState : GameState :=
  { store := [(0, wEvent)]
    registry := [(TileEvent.get_location_key 3 3, [0])] }

/-- Concrete pushed object for the witnesses. -/
def wIO : InteractableObject :=
  { sprite_x := 0
    sprite_y := 0
    current_x := 3
    current_y := 3
    object_events := [0]
    collide_layer_shift := 1
    base_collider_layer := 0 }

/-- Concrete `data` record for the witnesses; the geometry realizes
`positive_limit = 10`, `negative_limit = -10`, `hero.y = -15`. -/
def wData : PushData :=
  { game := wState
    hero_x := 10
    hero_y := -15
    trying_to_push := true
    trying_to_push_direction := Direction.down
    actual_direction := Direction.down
    casting_psynergy := false
    jumping := false
    pushing := false
    actual_action := none
    push_timer := none }

/-- Event whose `activation_directions` lack `down`, used to exhibit the
`indexOf = -1` behaviour of `activate_at`. -/
def bugEvent : TileEvent :=
  { type := event_types.jump
    x := 0
    y := 0
    location_key := TileEvent.get_location_key 0 0
    id := 7
    activation_collision_layers := [0]
    activation_directions := [Direction.up]
    dynamic := false
    active := [false]
    activeNegOne := none
    affected_by_reveal := [false] }

/-- Constructor-argument record used by the identity-registry witnesses. -/
def wArgs : TileEventArgs :=
  { type := event_types.step
    x := 1
    y := 2
    activation_directions := [Direction.up]
    activation_collision_layers := [0]
    dynamic := false
    active := [true]
    affected_by_reveal := [false] }

/-- Two events agree on everything except possibly their activation state
(the only thing the jump-trigger reconciliation may change). -/
def same_placement (e e' : TileEvent) : Prop :=
  e'.type = e.type ∧ e'.x = e.x ∧ e'.y = e.y ∧ e'.location_key = e.location_key ∧
  e'.id = e.id ∧ e'.activation_collision_layers = e.activation_collision_layers ∧
  e'.activation_directions = e.activation_directions ∧ e'.dynamic = e.dynamic ∧
  e'.affected_by_reveal = e.affected_by_reveal

/-- Pointwise `same_placement` on optional lookup results. -/
def opt_same_placement : Option TileEvent → Option TileEvent → Prop
  | some e, some e' => same_placement e e'
  | none, none => True
  | _, _ => False

/-- The store `st'` is `st` with only activation flags changed: same keys in
the same order, and each entry's placement data intact. -/
def flags_only (st st' : List (Nat × TileEvent)) : Prop :=
  st'.map Prod.fst = st.map Prod.fst ∧
  ∀ i, opt_same_placement (alookup st i) (alookup st' i)

/-- The relocation postcondition for one owned event: its coordinates moved
from `(ox, oy)` to `(nx, ny)`, its `location_key` was recomputed, it sits in
the bucket of its new key, and no bucket at the old key contains it. -/
def relocated_to (g : GameState) (eid : Nat) (ox oy nx ny : Int) : Prop :=
  (∃ e', alookup g.store eid = some e' ∧ e'.x = nx ∧ e'.y = ny ∧
    e'.location_key = TileEvent.get_location_key nx ny) ∧
  (∃ b, alookup g.registry (TileEvent.get_location_key nx ny) = some b ∧ eid ∈ b) ∧
  (∀ b, alookup g.registry (TileEvent.get_location_key ox oy) = some b → eid ∉ b)

end GoldenSun

namespace GoldenSun

/-! ### The location-key codec is injective -/

theorem toDigitsCore_acc (fuel : Nat) : ∀ (n : Nat) (acc : List Char),
    Nat.toDigitsCore 10 fuel n acc = Nat.toDigitsCore 10 fuel n [] ++ acc := by
  induction fuel with
  | zero => intro n acc; simp [Nat.toDigitsCore]
  | succ f ih =>
    intro n acc
    simp only [Nat.toDigitsCore]
    by_cases h : n / 10 = 0
    · simp [h]
    · simp only [h, if_false]
      rw [ih (n / 10) [Nat.digitChar (n % 10)], ih (n / 10) (Nat.digitChar (n % 10) :: acc)]
      simp

theorem toDigitsCore_fuel : ∀ (n fuel fuel' : Nat), n < fuel → n < fuel' →
    Nat.toDigitsCore 10 fuel n [] = Nat.toDigitsCore 10 fuel' n [] := by
  intro n
  induction n using Nat.strong_induction_on with
  | _ n ih =>
    intro fuel fuel' hf hf'
    match fuel, fuel' with
    | f + 1, f' + 1 =>
      simp only [Nat.toDigitsCore]
      by_cases h : n / 10 = 0
      · simp [h]
      · simp only [h, if_false]
        rw [toDigitsCore_acc, toDigitsCore_acc f']
        have hlt : n / 10 < n := Nat.div_lt_self (Nat.pos_of_ne_zero (by
          intro h0; subst h0; simp at h)) (by norm_num)
        rw [ih (n / 10) hlt f f' (by omega) (by omega)]

theorem toDigits_lt {n : Nat} (h : n < 10) : Nat.toDigits 10 n = [Nat.digitChar n] := by
  have h0 : n / 10 = 0 := Nat.div_eq_of_lt h
  simp [Nat.toDigits, Nat.toDigitsCore, h0, Nat.mod_eq_of_lt h]

theorem toDigitsCore_succ (f n : Nat) :
    Nat.toDigitsCore 10 (f + 1) n [] =
      if n / 10 = 0 then [Nat.digitChar (n % 10)]
      else Nat.toDigitsCore 10 f (n / 10) [Nat.digitChar (n % 10)] := rfl

theorem toDigits_ge {n : Nat} (h : 10 ≤ n) :
    Nat.toDigits 10 n = Nat.toDigits 10 (n / 10) ++ [Nat.digitChar (n % 10)] := by
  have h0 : n / 10 ≠ 0 := by omega
  show Nat.toDigitsCore 10 (n + 1) n [] = _
  rw [toDigitsCore_succ n n, if_neg h0, toDigitsCore_acc]
  show Nat.toDigitsCore 10 n (n / 10) [] ++ _ = Nat.toDigitsCore 10 (n / 10 + 1) (n / 10) [] ++ _
  rw [toDigitsCore_fuel (n / 10) n (n / 10 + 1) (by omega) (by omega)]

theorem digitChar_toNat {m : Nat} (h : m < 10) : (Nat.digitChar m).toNat = 48 + m := by
  have hall : ∀ x ∈ List.range 10, (Nat.digitChar x).toNat = 48 + x := by decide
  exact hall m (List.mem_range.mpr h)

theorem digitChar_isDigit {m : Nat} (h : m < 10) : (Nat.digitChar m).isDigit = true := by
  have hall : ∀ x ∈ List.range 10, (Nat.digitChar x).isDigit = true := by decide
  exact hall m (List.mem_range.mpr h)

theorem toDigits_isDigit : ∀ (n : Nat), ∀ c ∈ Nat.toDigits 10 n, c.isDigit = true := by
  intro n
  induction n using Nat.strong_induction_on with
  | _ n ih =>
    intro c hc
    by_cases h : n < 10
    · rw [toDigits_lt h, List.mem_singleton] at hc
      subst hc
      exact digitChar_isDigit h
    · rw [toDigits_ge (by omega)] at hc
      rcases List.mem_append.mp hc with h1 | h1
      · exact ih (n / 10) (Nat.div_lt_self (by omega) (by norm_num)) c h1
      · rw [List.mem_singleton] at h1
        subst h1
        exact digitChar_isDigit (Nat.mod_lt _ (by norm_num))

theorem read_digits_append (a : List Char) (c : Char) :
    read_digits (a ++ [c]) = read_digits a * 10 + (c.toNat - 48) := by
  simp [read_digits, List.foldl_append]

theorem read_digits_toDigits : ∀ (n : Nat), read_digits (Nat.toDigits 10 n) = n := by
  intro n
  induction n using Nat.strong_induction_on with
  | _ n ih =>
    by_cases h : n < 10
    · rw [toDigits_lt h]
      simp [read_digits, digitChar_toNat h]
    · rw [toDigits_ge (by omega), read_digits_append,
        ih (n / 10) (Nat.div_lt_self (by omega) (by norm_num)),
        digitChar_toNat (Nat.mod_lt _ (by norm_num))]
      omega

theorem toDigits_inj {n m : Nat} (h : Nat.toDigits 10 n = Nat.toDigits 10 m) : n = m := by
  have := congrArg read_digits h
  rwa [read_digits_toDigits, read_digits_toDigits] at this

theorem toDigits_ne_nil (n : Nat) : Nat.toDigits 10 n ≠ [] := by
  by_cases h : n < 10
  · rw [toDigits_lt h]; simp
  · rw [toDigits_ge (by omega)]; simp

theorem nat_repr_data (n : Nat) : (Nat.repr n).data = Nat.toDigits 10 n := by
  simp [Nat.repr, List.asString]

theorem int_toString_data_ofNat (m : Nat) :
    (toString (Int.ofNat m)).data = Nat.toDigits 10 m := by
  show (Nat.repr m).data = _
  exact nat_repr_data m

theorem int_toString_data_negSucc (m : Nat) :
    (toString (Int.negSucc m)).data = '-' :: Nat.toDigits 10 (m + 1) := by
  show (("-" : String) ++ Nat.repr (m + 1)).data = _
  rw [String.data_append, nat_repr_data]
  rfl

theorem int_toString_data_digit (i : Int) :
    ∀ c ∈ (toString i).data, c.isDigit = true ∨ c = '-' := by
  intro c hc
  cases i with
  | ofNat m =>
    rw [int_toString_data_ofNat] at hc
    exact Or.inl (toDigits_isDigit m c hc)
  | negSucc m =>
    rw [int_toString_data_negSucc, List.mem_cons] at hc
    rcases hc with hc | hc
    · exact Or.inr hc
    · exact Or.inl (toDigits_isDigit (m + 1) c hc)

theorem int_toString_no_underscore (i : Int) : '_' ∉ (toString i).data := by
  intro hmem
  rcases int_toString_data_digit i '_' hmem with h | h
  · simp [Char.isDigit] at h
  · simp at h

theorem int_toString_data_inj : ∀ {i j : Int}, (toString i).data = (toString j).data → i = j := by
  have hmix : ∀ (m k : Nat), Nat.toDigits 10 m ≠ '-' :: Nat.toDigits 10 (k + 1) := by
    intro m k h
    match hm : Nat.toDigits 10 m with
    | [] => exact toDigits_ne_nil m hm
    | c :: rest =>
      rw [hm] at h
      have hc : c ∈ Nat.toDigits 10 m := by rw [hm]; exact List.mem_cons_self c rest
      have hdig := toDigits_isDigit m c hc
      have hcd : c = '-' := (List.cons.injEq _ _ _ _ ▸ h).1
      rw [hcd] at hdig
      simp [Char.isDigit] at hdig
  intro i j h
  match i, j with
  | Int.ofNat m, Int.ofNat k =>
    rw [int_toString_data_ofNat, int_toString_data_ofNat] at h
    rw [toDigits_inj h]
  | Int.ofNat m, Int.negSucc k =>
    rw [int_toString_data_ofNat, int_toString_data_negSucc] at h
    exact absurd h (hmix m k)
  | Int.negSucc m, Int.ofNat k =>
    rw [int_toString_data_ofNat, int_toString_data_negSucc] at h
    exact absurd h.symm (hmix k m)
  | Int.negSucc m, Int.negSucc k =>
    rw [int_toString_data_negSucc, int_toString_data_negSucc] at h
    have := toDigits_inj (List.cons.injEq _ _ _ _ ▸ h).2
    have hmk : m = k := by omega
    rw [hmk]

theorem underscore_split : ∀ (l1 m1 l2 m2 : List Char), '_' ∉ l1 → '_' ∉ m1 →
    l1 ++ '_' :: l2 = m1 ++ '_' :: m2 → l1 = m1 ∧ l2 = m2 := by
  intro l1
  induction l1 with
  | nil =>
    intro m1 l2 m2 _ hm heq
    cases m1 with
    | nil => simpa using heq
    | cons b m1' =>
      exfalso
      simp only [List.nil_append, List.cons_append, List.cons.injEq] at heq
      obtain ⟨h1, -⟩ := heq
      subst h1
      simp at hm
  | cons a l1' ih =>
    intro m1 l2 m2 hl hm heq
    cases m1 with
    | nil =>
      exfalso
      simp only [List.nil_append, List.cons_append, List.cons.injEq] at heq
      obtain ⟨h1, -⟩ := heq
      rw [← h1] at hl
      simp at hl
    | cons b m1' =>
      simp only [List.cons_append, List.cons.injEq] at heq
      obtain ⟨h1, h2⟩ := heq
      have hl' : '_' ∉ l1' := fun hh => hl (List.mem_cons_of_mem _ hh)
      have hm' : '_' ∉ m1' := fun hh => hm (List.mem_cons_of_mem _ hh)
      obtain ⟨e1, e2⟩ := ih m1' l2 m2 hl' hm' h2
      exact ⟨by rw [h1, e1], e2⟩

theorem get_location_key_inj {x y x' y' : Int}
    (h : TileEvent.get_location_key x y = TileEvent.get_location_key x' y') :
    x = x' ∧ y = y' := by
  have hd := congrArg String.data h
  simp only [TileEvent.get_location_key, String.data_append] at hd
  simp only [List.append_assoc, List.singleton_append] at hd
  have hsplit := underscore_split (toString x).data (toString x').data (toString y).data
    (toString y').data (int_toString_no_underscore x) (int_toString_no_underscore x') hd
  exact ⟨int_toString_data_inj hsplit.1, int_toString_data_inj hsplit.2⟩

theorem get_location_key_shift_ne {x y sx sy : Int} (h : ¬(sx = 0 ∧ sy = 0)) :
    TileEvent.get_location_key (x + sx) (y + sy) ≠ TileEvent.get_location_key x y := by
  intro heq
  have := get_location_key_inj heq
  omega

/-! ### Association-list (JavaScript object) lemmas -/
theorem alookup_nil {A B : Type} [DecidableEq A] (k : A) :
    alookup ([] : List (A × B)) k = none := rfl

theorem alookup_cons {A B : Type} [DecidableEq A] (a : A) (b : B) (rest : List (A × B))
    (k : A) : alookup ((a, b) :: rest) k = if a = k then some b else alookup rest k := rfl

theorem aset_nil {A B : Type} [DecidableEq A] (k : A) (v : B) :
    aset ([] : List (A × B)) k v = [(k, v)] := rfl

theorem aset_cons {A B : Type} [DecidableEq A] (a : A) (b : B) (rest : List (A × B))
    (k : A) (v : B) :
    aset ((a, b) :: rest) k v = if a = k then (k, v) :: rest else (a, b) :: aset rest k v := rfl

theorem adelete_nil {A B : Type} [DecidableEq A] (k : A) :
    adelete ([] : List (A × B)) k = [] := rfl

theorem adelete_cons {A B : Type} [DecidableEq A] (a : A) (b : B) (rest : List (A × B))
    (k : A) : adelete ((a, b) :: rest) k = if a = k then rest else (a, b) :: adelete rest k := rfl

theorem alookup_aset_self {A B : Type} [DecidableEq A] (l : List (A × B)) (k : A) (v : B) :
    alookup (aset l k v) k = some v := by
  induction l with
  | nil => simp [aset_nil, alookup_cons, alookup_nil]
  | cons p rest ih =>
    obtain ⟨a, b⟩ := p
    by_cases h : a = k
    · subst h
      simp [aset_cons, alookup_cons]
    · rw [aset_cons, if_neg h, alookup_cons, if_neg h]
      exact ih

theorem alookup_aset_ne {A B : Type} [DecidableEq A] (l : List (A × B)) {k k' : A}
    (h : k' ≠ k) (v : B) : alookup (aset l k v) k' = alookup l k' := by
  have hk : ¬ (k = k') := fun hh => h hh.symm
  induction l with
  | nil => simp [aset_nil, alookup_cons, alookup_nil, hk]
  | cons p rest ih =>
    obtain ⟨a, b⟩ := p
    by_cases ha : a = k
    · subst ha
      rw [aset_cons, if_pos rfl, alookup_cons, if_neg hk, alookup_cons, if_neg hk]
    · rw [aset_cons, if_neg ha, alookup_cons, alookup_cons]
      by_cases ha' : a = k'
      · rw [if_pos ha', if_pos ha']
      · rw [if_neg ha', if_neg ha']
        exact ih

theorem alookup_adelete_ne {A B : Type} [DecidableEq A] (l : List (A × B)) {k k' : A}
    (h : k' ≠ k) : alookup (adelete l k) k' = alookup l k' := by
  induction l with
  | nil => simp [adelete_nil]
  | cons p rest ih =>
    obtain ⟨a, b⟩ := p
    by_cases ha : a = k
    · subst ha
      rw [adelete_cons, if_pos rfl, alookup_cons, if_neg (fun hh => h hh.symm)]
    · rw [adelete_cons, if_neg ha, alookup_cons, alookup_cons]
      by_cases ha' : a = k'
      · rw [if_pos ha', if_pos ha']
      · rw [if_neg ha', if_neg ha']
        exact ih

theorem alookup_adelete_self {A B : Type} [DecidableEq A] (l : List (A × B))
    (hn : (l.map Prod.fst).Nodup) (k : A) : alookup (adelete l k) k = none := by
  induction l with
  | nil => simp [adelete_nil, alookup_nil]
  | cons p rest ih =>
    obtain ⟨a, b⟩ := p
    simp only [List.map_cons, List.nodup_cons] at hn
    by_cases ha : a = k
    · subst ha
      rw [adelete_cons, if_pos rfl]
      clear ih
      induction rest with
      | nil => simp [alookup_nil]
      | cons q rest' ih' =>
        obtain ⟨c, d⟩ := q
        simp only [List.map_cons, List.mem_cons, not_or] at hn
        rw [alookup_cons, if_neg (fun hh => hn.1.1 hh.symm)]
        exact ih' ⟨hn.1.2, (List.nodup_cons.mp hn.2).2⟩
    · rw [adelete_cons, if_neg ha, alookup_cons, if_neg ha]
      exact ih hn.2

theorem mem_aset_elim {A B : Type} [DecidableEq A] {l : List (A × B)} {k : A} {v : B}
    {p : A × B} (hp : p ∈ aset l k v) : p = (k, v) ∨ p ∈ l := by
  induction l with
  | nil =>
    rw [aset_nil, List.mem_singleton] at hp
    exact Or.inl hp
  | cons q rest ih =>
    obtain ⟨a, b⟩ := q
    by_cases h : a = k
    · subst h
      rw [aset_cons, if_pos rfl, List.mem_cons] at hp
      rcases hp with h1 | h1
      · exact Or.inl h1
      · exact Or.inr (List.mem_cons_of_mem _ h1)
    · rw [aset_cons, if_neg h, List.mem_cons] at hp
      rcases hp with h1 | h1
      · exact Or.inr (List.mem_cons.mpr (Or.inl h1))
      · rcases ih h1 with h2 | h2
        · exact Or.inl h2
        · exact Or.inr (List.mem_cons_of_mem _ h2)

theorem mem_aset_of_ne {A B : Type} [DecidableEq A] {l : List (A × B)} {k : A} {v : B}
    {p : A × B} (hp : p ∈ l) (hne : p.1 ≠ k) : p ∈ aset l k v := by
  induction l with
  | nil => simp at hp
  | cons q rest ih =>
    obtain ⟨a, b⟩ := q
    by_cases h : a = k
    · subst h
      rw [aset_cons, if_pos rfl, List.mem_cons]
      rcases List.mem_cons.mp hp with h1 | h1
      · exact absurd (by rw [h1]) hne
      · exact Or.inr h1
    · rw [aset_cons, if_neg h, List.mem_cons]
      rcases List.mem_cons.mp hp with h1 | h1
      · exact Or.inl h1
      · exact Or.inr (ih h1)

theorem mem_aset_self {A B : Type} [DecidableEq A] (l : List (A × B)) (k : A) (v : B) :
    (k, v) ∈ aset l k v := by
  induction l with
  | nil => simp [aset_nil]
  | cons q rest ih =>
    obtain ⟨a, b⟩ := q
    by_cases h : a = k
    · subst h
      rw [aset_cons, if_pos rfl]
      exact List.mem_cons_self _ _
    · rw [aset_cons, if_neg h]
      exact List.mem_cons_of_mem _ ih

theorem mem_adelete_elim {A B : Type} [DecidableEq A] {l : List (A × B)} {k : A}
    {p : A × B} (hp : p ∈ adelete l k) : p ∈ l := by
  induction l with
  | nil =>
    rw [adelete_nil] at hp
    simp at hp
  | cons q rest ih =>
    obtain ⟨a, b⟩ := q
    by_cases h : a = k
    · subst h
      rw [adelete_cons, if_pos rfl] at hp
      exact List.mem_cons_of_mem _ hp
    · rw [adelete_cons, if_neg h, List.mem_cons] at hp
      rcases hp with h1 | h1
      · exact List.mem_cons.mpr (Or.inl h1)
      · exact List.mem_cons_of_mem _ (ih h1)

theorem mem_adelete_of_ne {A B : Type} [DecidableEq A] {l : List (A × B)} {k : A}
    {p : A × B} (hp : p ∈ l) (hne : p.1 ≠ k) : p ∈ adelete l k := by
  induction l with
  | nil => simp at hp
  | cons q rest ih =>
    obtain ⟨a, b⟩ := q
    by_cases h : a = k
    · subst h
      rw [adelete_cons, if_pos rfl]
      rcases List.mem_cons.mp hp with h1 | h1
      · exact absurd (by rw [h1]) hne
      · exact h1
    · rw [adelete_cons, if_neg h, List.mem_cons]
      rcases List.mem_cons.mp hp with h1 | h1
      · exact Or.inl h1
      · exact Or.inr (ih h1)

theorem aset_keys_subset {A B : Type} [DecidableEq A] (l : List (A × B)) (k : A) (v : B) :
    ∀ a ∈ (aset l k v).map Prod.fst, a = k ∨ a ∈ l.map Prod.fst := by
  intro a ha
  rcases List.mem_map.mp ha with ⟨p, hp, hpa⟩
  rcases mem_aset_elim hp with h | h
  · left; rw [← hpa, h]
  · right; exact List.mem_map.mpr ⟨p, h, hpa⟩

theorem nodup_aset {A B : Type} [DecidableEq A] {l : List (A × B)}
    (hn : (l.map Prod.fst).Nodup) (k : A) (v : B) :
    ((aset l k v).map Prod.fst).Nodup := by
  induction l with
  | nil => simp [aset_nil]
  | cons q rest ih =>
    obtain ⟨a, b⟩ := q
    simp only [List.map_cons, List.nodup_cons] at hn
    by_cases h : a = k
    · subst h
      rw [aset_cons, if_pos rfl]
      simp only [List.map_cons, List.nodup_cons]
      exact hn
    · rw [aset_cons, if_neg h]
      simp only [List.map_cons, List.nodup_cons]
      refine ⟨fun hmem => ?_, ih hn.2⟩
      rcases aset_keys_subset rest k v a hmem with h1 | h1
      · exact h h1
      · exact hn.1 h1

theorem nodup_adelete {A B : Type} [DecidableEq A] {l : List (A × B)}
    (hn : (l.map Prod.fst).Nodup) (k : A) :
    ((adelete l k).map Prod.fst).Nodup := by
  induction l with
  | nil => simp [adelete_nil]
  | cons q rest ih =>
    obtain ⟨a, b⟩ := q
    simp only [List.map_cons, List.nodup_cons] at hn
    by_cases h : a = k
    · subst h
      rw [adelete_cons, if_pos rfl]
      exact hn.2
    · rw [adelete_cons, if_neg h]
      simp only [List.map_cons, List.nodup_cons]
      refine ⟨fun hmem => ?_, ih hn.2⟩
      rcases List.mem_map.mp hmem with ⟨p, hp, hpa⟩
      exact hn.1 (List.mem_map.mpr ⟨p, mem_adelete_elim hp, hpa⟩)

theorem alookup_mem {A B : Type} [DecidableEq A] {l : List (A × B)} {k : A} {v : B} :
    alookup l k = some v → (k, v) ∈ l := by
  induction l with
  | nil => intro h; exact absurd h (by rw [alookup_nil]; exact Option.noConfusion)
  | cons q rest ih =>
    obtain ⟨a, b⟩ := q
    intro h
    by_cases hq : a = k
    · subst hq
      rw [alookup_cons, if_pos rfl] at h
      rw [Option.some.injEq] at h
      subst h
      exact List.mem_cons_self _ _
    · rw [alookup_cons, if_neg hq] at h
      exact List.mem_cons_of_mem _ (ih h)

theorem mem_alookup {A B : Type} [DecidableEq A] {l : List (A × B)} {k : A} {v : B}
    (hn : (l.map Prod.fst).Nodup) (h : (k, v) ∈ l) : alookup l k = some v := by
  induction l with
  | nil => simp at h
  | cons q rest ih =>
    obtain ⟨a, b⟩ := q
    simp only [List.map_cons, List.nodup_cons] at hn
    rcases List.mem_cons.mp h with h1 | h1
    · cases h1
      rw [alookup_cons, if_pos rfl]
    · by_cases hq : a = k
      · subst hq
        exact absurd (List.mem_map.mpr ⟨(a, v), h1, rfl⟩) hn.1
      · rw [alookup_cons, if_neg hq]
        exact ih hn.2 h1

theorem alookup_none {A B : Type} [DecidableEq A] {l : List (A × B)} {k : A}
    (h : alookup l k = none) : ∀ v, (k, v) ∉ l := by
  induction l with
  | nil => simp
  | cons q rest ih =>
    obtain ⟨a, b⟩ := q
    by_cases hq : a = k
    · subst hq
      rw [alookup_cons, if_pos rfl] at h
      simp at h
    · rw [alookup_cons, if_neg hq] at h
      intro v hv
      rcases List.mem_cons.mp hv with h1 | h1
      · exact hq (congrArg Prod.fst h1.symm)
      · exact ih h v h1

theorem aset_keys_of_mem {A B : Type} [DecidableEq A] {l : List (A × B)} {k : A} {v0 : B}
    (h : alookup l k = some v0) (v : B) : (aset l k v).map Prod.fst = l.map Prod.fst := by
  induction l with
  | nil => simp [alookup_nil] at h
  | cons q rest ih =>
    obtain ⟨a, b⟩ := q
    by_cases hq : a = k
    · subst hq
      rw [aset_cons, if_pos rfl]
      simp
    · rw [alookup_cons, if_neg hq] at h
      rw [aset_cons, if_neg hq, List.map_cons, List.map_cons, ih h]

theorem mem_aset_elim_nodup {A B : Type} [DecidableEq A] {l : List (A × B)} {k : A} {v : B}
    {p : A × B} (hn : (l.map Prod.fst).Nodup) (hp : p ∈ aset l k v) :
    p = (k, v) ∨ (p ∈ l ∧ p.1 ≠ k) := by
  induction l with
  | nil =>
    rw [aset_nil, List.mem_singleton] at hp
    exact Or.inl hp
  | cons q rest ih =>
    obtain ⟨a, b⟩ := q
    simp only [List.map_cons, List.nodup_cons] at hn
    by_cases h : a = k
    · subst h
      rw [aset_cons, if_pos rfl, List.mem_cons] at hp
      rcases hp with h1 | h1
      · exact Or.inl h1
      · refine Or.inr ⟨List.mem_cons_of_mem _ h1, fun hk => ?_⟩
        exact hn.1 (List.mem_map.mpr ⟨p, h1, hk⟩)
    · rw [aset_cons, if_neg h, List.mem_cons] at hp
      rcases hp with h1 | h1
      · exact Or.inr ⟨List.mem_cons.mpr (Or.inl h1), by rw [h1]; exact h⟩
      · rcases ih hn.2 h1 with h2 | h2
        · exact Or.inl h2
        · exact Or.inr ⟨List.mem_cons_of_mem _ h2.1, h2.2⟩

theorem mem_adelete_elim_nodup {A B : Type} [DecidableEq A] {l : List (A × B)} {k : A}
    {p : A × B} (hn : (l.map Prod.fst).Nodup) (hp : p ∈ adelete l k) :
    p ∈ l ∧ p.1 ≠ k := by
  induction l with
  | nil =>
    rw [adelete_nil] at hp
    simp at hp
  | cons q rest ih =>
    obtain ⟨a, b⟩ := q
    simp only [List.map_cons, List.nodup_cons] at hn
    by_cases h : a = k
    · subst h
      rw [adelete_cons, if_pos rfl] at hp
      refine ⟨List.mem_cons_of_mem _ hp, fun hk => ?_⟩
      exact hn.1 (List.mem_map.mpr ⟨p, hp, hk⟩)
    · rw [adelete_cons, if_neg h, List.mem_cons] at hp
      rcases hp with h1 | h1
      · exact ⟨List.mem_cons.mpr (Or.inl h1), by rw [h1]; exact h⟩
      · obtain ⟨h2, h3⟩ := ih hn.2 h1
        exact ⟨List.mem_cons_of_mem _ h2, h3⟩

/-! ### The jump-trigger reconciliation only touches activation flags -/

theorem same_placement_refl (e : TileEvent) : same_placement e e := by
  simp [same_placement]

theorem same_placement_trans {a b c : TileEvent} (h1 : same_placement a b)
    (h2 : same_placement b c) : same_placement a c := by
  obtain ⟨t1, x1, y1, k1, i1, l1, d1, dy1, r1⟩ := h1
  obtain ⟨t2, x2, y2, k2, i2, l2, d2, dy2, r2⟩ := h2
  exact ⟨t2.trans t1, x2.trans x1, y2.trans y1, k2.trans k1, i2.trans i1, l2.trans l1,
    d2.trans d1, dy2.trans dy1, r2.trans r1⟩

theorem same_placement_write_active (e : TileEvent) (d : Direction) (v : Bool) :
    same_placement e (e.write_active_at d v) := by
  rw [TileEvent.write_active_at]
  cases idx_of e.activation_directions d with
  | some j => exact ⟨rfl, rfl, rfl, rfl, rfl, rfl, rfl, rfl, rfl⟩
  | none => exact ⟨rfl, rfl, rfl, rfl, rfl, rfl, rfl, rfl, rfl⟩

theorem opt_same_placement_refl (o : Option TileEvent) : opt_same_placement o o := by
  cases o with
  | none => trivial
  | some e => exact same_placement_refl e

theorem opt_same_placement_trans {a b c : Option TileEvent} (h1 : opt_same_placement a b)
    (h2 : opt_same_placement b c) : opt_same_placement a c := by
  cases a <;> cases b <;> cases c <;>
    first
    | trivial
    | (simp only [opt_same_placement] at *
       exact same_placement_trans h1 h2)

theorem flags_only_refl (st : List (Nat × TileEvent)) : flags_only st st :=
  ⟨rfl, fun _ => opt_same_placement_refl _⟩

theorem flags_only_trans {a b c : List (Nat × TileEvent)} (h1 : flags_only a b)
    (h2 : flags_only b c) : flags_only a c :=
  ⟨h2.1.trans h1.1, fun i => opt_same_placement_trans (h1.2 i) (h2.2 i)⟩

theorem flags_only_aset {st : List (Nat × TileEvent)} {i : Nat} {ev ev' : TileEvent}
    (h : alookup st i = some ev) (hsp : same_placement ev ev') :
    flags_only st (aset st i ev') := by
  refine ⟨aset_keys_of_mem h ev', fun j => ?_⟩
  by_cases hj : j = i
  · subst hj
    rw [h, alookup_aset_self]
    exact hsp
  · rw [alookup_aset_ne st hj]
    exact opt_same_placement_refl _

theorem flags_only_foldl {γ : Type} (f : List (Nat × TileEvent) → γ → List (Nat × TileEvent))
    (hf : ∀ st c, flags_only st (f st c)) :
    ∀ (l : List γ) (st : List (Nat × TileEvent)), flags_only st (l.foldl f st) := by
  intro l
  induction l with
  | nil => intro st; exact flags_only_refl st
  | cons c rest ih =>
    intro st
    rw [List.foldl_cons]
    exact flags_only_trans (hf st c) (ih (f st c))

theorem deactivate_surrounding_registry (tl : Int) (s : Surrounding) (g : GameState) :
    (deactivate_surrounding_jumps tl s g).registry = g.registry := by
  rw [deactivate_surrounding_jumps]
  cases alookup g.registry (TileEvent.get_location_key s.x s.y) <;> rfl

theorem flags_only_deactivate_jump_step (tl : Int) (d : Direction)
    (st : List (Nat × TileEvent)) (i : Nat) :
    flags_only st (deactivate_jump_step tl d st i) := by
  rw [deactivate_jump_step]
  cases hl : alookup st i with
  | none => exact flags_only_refl st
  | some ev =>
    dsimp only
    by_cases hc : ev.type = event_types.jump ∧ tl ∈ ev.activation_collision_layers ∧
        ev.dynamic = false
    · rw [if_pos hc]
      exact flags_only_aset hl (same_placement_write_active ev _ false)
    · rw [if_neg hc]
      exact flags_only_refl st

theorem flags_only_activate_jump_step (tl : Int) (d : Direction)
    (st : List (Nat × TileEvent)) (i : Nat) :
    flags_only st (activate_jump_step tl d st i) := by
  rw [activate_jump_step]
  cases hl : alookup st i with
  | none => exact flags_only_refl st
  | some ev =>
    dsimp only
    by_cases hc : ev.type = event_types.jump ∧ tl ∈ ev.activation_collision_layers
    · rw [if_pos hc]
      exact flags_only_aset hl (same_placement_write_active ev _ true)
    · rw [if_neg hc]
      exact flags_only_refl st

theorem deactivate_surrounding_flags (tl : Int) (s : Surrounding) (g : GameState) :
    flags_only g.store (deactivate_surrounding_jumps tl s g).store := by
  rw [deactivate_surrounding_jumps]
  cases alookup g.registry (TileEvent.get_location_key s.x s.y) with
  | none => exact flags_only_refl _
  | some bucket =>
    exact flags_only_foldl _ (flags_only_deactivate_jump_step tl _) bucket g.store

theorem deactivate_old_registry (tl : Int) (ox oy : Int) (g : GameState) :
    (deactivate_old_surroundings tl ox oy g).registry = g.registry := by
  rw [deactivate_old_surroundings]
  generalize get_surroundings ox oy 2 = ss
  induction ss generalizing g with
  | nil => rfl
  | cons s rest ih =>
    rw [List.foldl_cons, ih, deactivate_surrounding_registry]

theorem deactivate_old_flags (tl : Int) (ox oy : Int) (g : GameState) :
    flags_only g.store (deactivate_old_surroundings tl ox oy g).store := by
  rw [deactivate_old_surroundings]
  generalize get_surroundings ox oy 2 = ss
  induction ss generalizing g with
  | nil => exact flags_only_refl _
  | cons s rest ih =>
    rw [List.foldl_cons]
    exact flags_only_trans (deactivate_surrounding_flags tl s g) (ih _)

theorem active_jump_registry (tl : Int) (ss : List Surrounding) (g : GameState) :
    (active_jump_surroundings tl ss g).registry = g.registry := by
  rw [active_jump_surroundings]
  induction ss generalizing g with
  | nil => rfl
  | cons s rest ih =>
    rw [List.foldl_cons]
    rw [ih]
    cases alookup g.registry (TileEvent.get_location_key s.x s.y) <;> rfl

theorem active_jump_flags (tl : Int) (ss : List Surrounding) (g : GameState) :
    flags_only g.store (active_jump_surroundings tl ss g).store := by
  rw [active_jump_surroundings]
  induction ss generalizing g with
  | nil => exact flags_only_refl _
  | cons s rest ih =>
    rw [List.foldl_cons]
    refine flags_only_trans (b := (match alookup g.registry
      (TileEvent.get_location_key s.x s.y) with
      | none => g
      | some bucket =>
        { g with
          store := bucket.foldl
            (activate_jump_step tl (get_opposite_direcion s.direction)) g.store }).store)
      ?_ (ih _)
    cases alookup g.registry (TileEvent.get_location_key s.x s.y) with
    | none => exact flags_only_refl _
    | some bucket =>
      exact flags_only_foldl _ (flags_only_activate_jump_step tl _) bucket g.store

/-! ### Lookup characterization of bucket removal and insertion -/

theorem reloc_remove_self (reg : List (String × List Nat))
    (hn : (reg.map Prod.fst).Nodup) (KO : String) (eid : Nat) :
    alookup (reloc_remove reg KO eid) KO =
      (if ((alookup reg KO).getD []).filter (fun i => i ≠ eid) = [] then none
       else some (((alookup reg KO).getD []).filter (fun i => i ≠ eid))) := by
  rw [reloc_remove]
  by_cases h : ((alookup reg KO).getD []).filter (fun i => i ≠ eid) = []
  · rw [if_pos h, if_pos h]
    exact alookup_adelete_self _ (nodup_aset hn KO _) KO
  · rw [if_neg h, if_neg h]
    exact alookup_aset_self reg KO _

theorem reloc_remove_ne (reg : List (String × List Nat)) {KO k : String} (h : k ≠ KO)
    (eid : Nat) : alookup (reloc_remove reg KO eid) k = alookup reg k := by
  rw [reloc_remove]
  by_cases hf : ((alookup reg KO).getD []).filter (fun i => i ≠ eid) = []
  · rw [if_pos hf, alookup_adelete_ne _ h, alookup_aset_ne _ h]
  · rw [if_neg hf, alookup_aset_ne _ h]

theorem reloc_remove_nodup {reg : List (String × List Nat)}
    (hn : (reg.map Prod.fst).Nodup) (KO : String) (eid : Nat) :
    ((reloc_remove reg KO eid).map Prod.fst).Nodup := by
  rw [reloc_remove]
  by_cases hf : ((alookup reg KO).getD []).filter (fun i => i ≠ eid) = []
  · rw [if_pos hf]
    exact nodup_adelete (nodup_aset hn _ _) _
  · rw [if_neg hf]
    exact nodup_aset hn _ _

theorem reloc_insert_self (reg : List (String × List Nat)) (K : String) (eid : Nat) :
    alookup (reloc_insert reg K eid) K = some (((alookup reg K).getD []) ++ [eid]) := by
  rw [reloc_insert]
  by_cases h : alookup reg K = none
  · rw [if_pos h, h, alookup_aset_self, alookup_aset_self]
    rfl
  · rw [if_neg h, alookup_aset_self]

theorem reloc_insert_ne (reg : List (String × List Nat)) {K k : String} (h : k ≠ K)
    (eid : Nat) : alookup (reloc_insert reg K eid) k = alookup reg k := by
  rw [reloc_insert]
  by_cases hK : alookup reg K = none
  · rw [if_pos hK, alookup_aset_ne _ h, alookup_aset_ne _ h]
  · rw [if_neg hK, alookup_aset_ne _ h]

theorem reloc_insert_nodup {reg : List (String × List Nat)}
    (hn : (reg.map Prod.fst).Nodup) (K : String) (eid : Nat) :
    ((reloc_insert reg K eid).map Prod.fst).Nodup := by
  rw [reloc_insert]
  by_cases hK : alookup reg K = none
  · rw [if_pos hK]
    exact nodup_aset (nodup_aset hn _ _) _ _
  · rw [if_neg hK]
    exact nodup_aset hn _ _

/-! ### Transfer of the invariants along flag-only store changes -/

theorem flags_only_lookup_some {st st' : List (Nat × TileEvent)} (hf : flags_only st st')
    {i : Nat} {e : TileEvent} (h : alookup st i = some e) :
    ∃ e', alookup st' i = some e' ∧ same_placement e e' := by
  have hi := hf.2 i
  rw [h] at hi
  cases h' : alookup st' i with
  | none => rw [h'] at hi; exact absurd hi (by simp [opt_same_placement])
  | some e' => rw [h'] at hi; exact ⟨e', rfl, hi⟩

theorem flags_only_lookup_some_rev {st st' : List (Nat × TileEvent)} (hf : flags_only st st')
    {i : Nat} {e' : TileEvent} (h : alookup st' i = some e') :
    ∃ e, alookup st i = some e ∧ same_placement e e' := by
  have hi := hf.2 i
  rw [h] at hi
  cases h' : alookup st i with
  | none => rw [h'] at hi; exact absurd hi (by simp [opt_same_placement])
  | some e => rw [h'] at hi; exact ⟨e, rfl, hi⟩

theorem registry_wf_of_parts {g g' : GameState} (hwf : RegistryWF g)
    (hreg : g'.registry = g.registry) (hf : flags_only g.store g'.store) :
    RegistryWF g' := by
  have hnod' : (g'.store.map Prod.fst).Nodup := by
    rw [hf.1]
    exact hwf.store_nodup
  constructor
  · exact hnod'
  · intro p hp
    obtain ⟨q, hq, hsp⟩ := flags_only_lookup_some_rev hf (mem_alookup hnod' hp)
    have := hwf.store_id (p.1, q) (alookup_mem hq)
    rw [hsp.2.2.2.2.1, this]
  · rw [hreg]; exact hwf.reg_nodup
  · rw [hreg]; exact hwf.buckets_nonempty
  · rw [hreg]
    intro p hp i hi
    obtain ⟨e, he⟩ := hwf.bucket_ids_live p hp i hi
    obtain ⟨e', he', -⟩ := flags_only_lookup_some hf he
    exact ⟨e', he'⟩
  · intro p hp
    rw [hreg]
    obtain ⟨q, hq, hsp⟩ := flags_only_lookup_some_rev hf (mem_alookup hnod' hp)
    obtain ⟨b, hb, hmem⟩ := hwf.events_bucketed (p.1, q) (alookup_mem hq)
    exact ⟨b, by rw [hsp.2.2.2.1]; exact hb, hmem⟩
  · intro p hp
    obtain ⟨q, hq, hsp⟩ := flags_only_lookup_some_rev hf (mem_alookup hnod' hp)
    have := hwf.keys_coherent (p.1, q) (alookup_mem hq)
    rw [hsp.2.2.2.1, this, hsp.2.1, hsp.2.2.1]

theorem relocated_to_of_parts {g g' : GameState} {eid : Nat} {ox oy nx ny : Int}
    (hP : relocated_to g eid ox oy nx ny) (hreg : g'.registry = g.registry)
    (hf : flags_only g.store g'.store) : relocated_to g' eid ox oy nx ny := by
  obtain ⟨⟨e', he', hx, hy, hk⟩, h2, h3⟩ := hP
  obtain ⟨e'', he'', hsp⟩ := flags_only_lookup_some hf he'
  refine ⟨⟨e'', he'', by rw [hsp.2.1, hx], by rw [hsp.2.2.1, hy],
    by rw [hsp.2.2.2.1, hk]⟩, ?_, ?_⟩
  · rw [hreg]; exact h2
  · rw [hreg]; exact h3

theorem registry_wf_active_jump {g : GameState} (hwf : RegistryWF g) (tl : Int)
    (ss : List Surrounding) : RegistryWF (active_jump_surroundings tl ss g) :=
  registry_wf_of_parts hwf (active_jump_registry tl ss g) (active_jump_flags tl ss g)

theorem registry_wf_deactivate_old {g : GameState} (hwf : RegistryWF g) (tl ox oy : Int) :
    RegistryWF (deactivate_old_surroundings tl ox oy g) :=
  registry_wf_of_parts hwf (deactivate_old_registry tl ox oy g)
    (deactivate_old_flags tl ox oy g)

theorem relocated_to_active_jump {g : GameState} {eid : Nat} {ox oy nx ny : Int}
    (hP : relocated_to g eid ox oy nx ny) (tl : Int) (ss : List Surrounding) :
    relocated_to (active_jump_surroundings tl ss g) eid ox oy nx ny :=
  relocated_to_of_parts hP (active_jump_registry tl ss g) (active_jump_flags tl ss g)

theorem relocated_to_deactivate_old {g : GameState} {eid : Nat} {ox oy nx ny : Int}
    (hP : relocated_to g eid ox oy nx ny) (tl ox' oy' : Int) :
    relocated_to (deactivate_old_surroundings tl ox' oy' g) eid ox oy nx ny :=
  relocated_to_of_parts hP (deactivate_old_registry tl ox' oy' g)
    (deactivate_old_flags tl ox' oy' g)

/-! ### The relocation core preserves the registry invariants -/

theorem relocate_core_store (sx sy : Int) (g : GameState) (eid : Nat) (e : TileEvent) :
    (relocate_core sx sy g eid e).store = aset g.store eid
      { e with
        x := e.x + sx
        y := e.y + sy
        location_key := TileEvent.get_location_key (e.x + sx) (e.y + sy) } := rfl

theorem relocate_core_registry (sx sy : Int) (g : GameState) (eid : Nat) (e : TileEvent) :
    (relocate_core sx sy g eid e).registry =
      reloc_insert (reloc_remove g.registry e.location_key eid)
        (TileEvent.get_location_key (e.x + sx) (e.y + sy)) eid := rfl

theorem mem_filter_ne {b : List Nat} {i j : Nat} (h : i ∈ b) (hne : i ≠ j) :
    i ∈ b.filter (fun x => x ≠ j) := by
  rw [List.mem_filter]
  exact ⟨h, by simpa using hne⟩

theorem not_mem_filter_self (b : List Nat) (j : Nat) :
    j ∉ b.filter (fun x => x ≠ j) := by
  intro h
  rw [List.mem_filter] at h
  simpa using h.2

theorem mem_of_mem_filter_ne {b : List Nat} {i j : Nat}
    (h : i ∈ b.filter (fun x => x ≠ j)) : i ∈ b :=
  (List.mem_filter.mp h).1

theorem relocate_core_wf {g : GameState} {eid : Nat} {e : TileEvent} (hwf : RegistryWF g)
    (he : alookup g.store eid = some e) (sx sy : Int) :
    RegistryWF (relocate_core sx sy g eid e) := by
  have hmem_e : (eid, e) ∈ g.store := alookup_mem he
  have h_eid : e.id = eid := hwf.store_id (eid, e) hmem_e
  have hrnodR : ((reloc_remove g.registry e.location_key eid).map Prod.fst).Nodup :=
    reloc_remove_nodup hwf.reg_nodup e.location_key eid
  have hrnod4 := reloc_insert_nodup hrnodR
    (TileEvent.get_location_key (e.x + sx) (e.y + sy)) eid
  have hlive : ∀ j, (∃ ev, alookup g.store j = some ev) →
      ∃ ev, alookup (relocate_core sx sy g eid e).store j = some ev := by
    intro j hj
    rw [relocate_core_store]
    by_cases hje : j = eid
    · subst hje
      exact ⟨_, alookup_aset_self _ _ _⟩
    · rw [alookup_aset_ne _ hje]
      exact hj
  constructor
  · rw [relocate_core_store, aset_keys_of_mem he]
    exact hwf.store_nodup
  · rw [relocate_core_store]
    intro p hp
    rcases mem_aset_elim hp with h1 | h1
    · rw [h1]
      exact h_eid
    · exact hwf.store_id p h1
  · rw [relocate_core_registry]
    exact hrnod4
  · rw [relocate_core_registry]
    intro p hp
    have hp' := mem_alookup hrnod4 hp
    by_cases hkK : p.1 = TileEvent.get_location_key (e.x + sx) (e.y + sy)
    · rw [hkK, reloc_insert_self] at hp'
      rw [Option.some.injEq] at hp'
      rw [← hp']
      simp
    · rw [reloc_insert_ne _ hkK] at hp'
      by_cases hkKO : p.1 = e.location_key
      · rw [hkKO, reloc_remove_self _ hwf.reg_nodup] at hp'
        by_cases hfe : ((alookup g.registry e.location_key).getD []).filter
            (fun i => i ≠ eid) = []
        · rw [if_pos hfe] at hp'
          cases hp'
        · rw [if_neg hfe] at hp'
          rw [Option.some.injEq] at hp'
          rw [← hp']
          exact hfe
      · rw [reloc_remove_ne _ hkKO] at hp'
        exact hwf.buckets_nonempty (p.1, p.2) (alookup_mem hp')
  · rw [relocate_core_registry]
    intro p hp i hi
    have hp' := mem_alookup hrnod4 hp
    by_cases hkK : p.1 = TileEvent.get_location_key (e.x + sx) (e.y + sy)
    · rw [hkK, reloc_insert_self] at hp'
      rw [Option.some.injEq] at hp'
      rw [← hp'] at hi
      rcases List.mem_append.mp hi with h1 | h1
      · cases hR : alookup (reloc_remove g.registry e.location_key eid)
            (TileEvent.get_location_key (e.x + sx) (e.y + sy)) with
        | none => rw [hR] at h1; simp at h1
        | some bR =>
          rw [hR] at h1
          rw [Option.getD_some] at h1
          by_cases hKKO : TileEvent.get_location_key (e.x + sx) (e.y + sy) = e.location_key
          · rw [hKKO, reloc_remove_self _ hwf.reg_nodup] at hR
            by_cases hfe : ((alookup g.registry e.location_key).getD []).filter
                (fun i => i ≠ eid) = []
            · rw [if_pos hfe] at hR
              cases hR
            · rw [if_neg hfe] at hR
              rw [Option.some.injEq] at hR
              rw [← hR] at h1
              have h2 := mem_of_mem_filter_ne h1
              cases hg : alookup g.registry e.location_key with
              | none => rw [hg] at h2; simp at h2
              | some b0 =>
                rw [hg, Option.getD_some] at h2
                exact hlive i (hwf.bucket_ids_live (e.location_key, b0) (alookup_mem hg) i h2)
          · rw [reloc_remove_ne _ hKKO] at hR
            exact hlive i (hwf.bucket_ids_live (_, bR) (alookup_mem hR) i h1)
      · rw [List.mem_singleton] at h1
        subst h1
        rw [relocate_core_store]
        exact ⟨_, alookup_aset_self _ _ _⟩
    · rw [reloc_insert_ne _ hkK] at hp'
      by_cases hkKO : p.1 = e.location_key
      · rw [hkKO, reloc_remove_self _ hwf.reg_nodup] at hp'
        by_cases hfe : ((alookup g.registry e.location_key).getD []).filter
            (fun i => i ≠ eid) = []
        · rw [if_pos hfe] at hp'
          cases hp'
        · rw [if_neg hfe] at hp'
          rw [Option.some.injEq] at hp'
          rw [← hp'] at hi
          have h2 := mem_of_mem_filter_ne hi
          cases hg : alookup g.registry e.location_key with
          | none => rw [hg] at h2; simp at h2
          | some b0 =>
            rw [hg, Option.getD_some] at h2
            exact hlive i (hwf.bucket_ids_live (e.location_key, b0) (alookup_mem hg) i h2)
      · rw [reloc_remove_ne _ hkKO] at hp'
        exact hlive i (hwf.bucket_ids_live (p.1, p.2) (alookup_mem hp') i hi)
  · rw [relocate_core_store, relocate_core_registry]
    intro p hp
    rcases mem_aset_elim_nodup hwf.store_nodup hp with h1 | h1
    · rw [h1]
      refine ⟨((alookup (reloc_remove g.registry e.location_key eid)
        (TileEvent.get_location_key (e.x + sx) (e.y + sy))).getD []) ++ [eid],
        reloc_insert_self _ _ _, by simp⟩
    · obtain ⟨hpm, hpne⟩ := h1
      obtain ⟨bf, hbf, hpmem⟩ := hwf.events_bucketed p hpm
      by_cases hfkK : p.2.location_key = TileEvent.get_location_key (e.x + sx) (e.y + sy)
      · rw [hfkK, reloc_insert_self]
        refine ⟨_, rfl, List.mem_append.mpr (Or.inl ?_)⟩
        by_cases hKKO : TileEvent.get_location_key (e.x + sx) (e.y + sy) = e.location_key
        · rw [hKKO, reloc_remove_self _ hwf.reg_nodup]
          have hbO : alookup g.registry e.location_key = some bf := by
            rw [← hKKO, ← hfkK]
            exact hbf
          rw [hbO, Option.getD_some]
          have hfil : p.1 ∈ bf.filter (fun i => i ≠ eid) := mem_filter_ne hpmem hpne
          rw [if_neg (List.ne_nil_of_mem hfil), Option.getD_some]
          exact hfil
        · rw [reloc_remove_ne _ hKKO, ← hfkK, hbf, Option.getD_some]
          exact hpmem
      · rw [reloc_insert_ne _ hfkK]
        by_cases hfkKO : p.2.location_key = e.location_key
        · rw [hfkKO, reloc_remove_self _ hwf.reg_nodup]
          have hbO : alookup g.registry e.location_key = some bf := by
            rw [← hfkKO]
            exact hbf
          rw [hbO, Option.getD_some]
          have hfil : p.1 ∈ bf.filter (fun i => i ≠ eid) := mem_filter_ne hpmem hpne
          rw [if_neg (List.ne_nil_of_mem hfil)]
          exact ⟨_, rfl, hfil⟩
        · rw [reloc_remove_ne _ hfkKO]
          exact ⟨bf, hbf, hpmem⟩
  · rw [relocate_core_store]
    intro p hp
    rcases mem_aset_elim hp with h1 | h1
    · rw [h1]
    · exact hwf.keys_coherent p h1

theorem relocate_core_relocated {g : GameState} {eid : Nat} {e : TileEvent}
    (hwf : RegistryWF g) (he : alookup g.store eid = some e) {sx sy : Int}
    (hsh : ¬(sx = 0 ∧ sy = 0)) :
    relocated_to (relocate_core sx sy g eid e) eid e.x e.y (e.x + sx) (e.y + sy) := by
  have hmem_e : (eid, e) ∈ g.store := alookup_mem he
  have hcoh : e.location_key = TileEvent.get_location_key e.x e.y :=
    hwf.keys_coherent (eid, e) hmem_e
  have hKne : TileEvent.get_location_key (e.x + sx) (e.y + sy) ≠
      TileEvent.get_location_key e.x e.y := get_location_key_shift_ne hsh
  refine ⟨?_, ?_, ?_⟩
  · rw [relocate_core_store]
    exact ⟨_, alookup_aset_self _ _ _, rfl, rfl, rfl⟩
  · rw [relocate_core_registry]
    exact ⟨_, reloc_insert_self _ _ _, by simp⟩
  · rw [relocate_core_registry]
    intro b hb
    rw [reloc_insert_ne _ (fun hh => hKne hh.symm)] at hb
    rw [← hcoh, reloc_remove_self _ hwf.reg_nodup] at hb
    by_cases hfe : ((alookup g.registry e.location_key).getD []).filter
        (fun i => i ≠ eid) = []
    · rw [if_pos hfe] at hb
      cases hb
    · rw [if_neg hfe] at hb
      rw [Option.some.injEq] at hb
      rw [← hb]
      exact not_mem_filter_self _ eid

theorem relocated_to_relocate_core {g : GameState} {fid : Nat} {f : TileEvent}
    {eid : Nat} {ox oy nx ny : Int} (hwf : RegistryWF g) (hne : fid ≠ eid)
    (hP : relocated_to g eid ox oy nx ny) (sx sy : Int) :
    relocated_to (relocate_core sx sy g fid f) eid ox oy nx ny := by
  obtain ⟨⟨e', he', hx, hy, hk⟩, ⟨b, hbN, hbmem⟩, hO⟩ := hP
  have hne' : eid ≠ fid := fun hh => hne hh.symm
  refine ⟨?_, ?_, ?_⟩
  · rw [relocate_core_store, alookup_aset_ne _ hne']
    exact ⟨e', he', hx, hy, hk⟩
  · rw [relocate_core_registry]
    by_cases hNK : TileEvent.get_location_key nx ny =
        TileEvent.get_location_key (f.x + sx) (f.y + sy)
    · rw [hNK, reloc_insert_self]
      refine ⟨_, rfl, List.mem_append.mpr (Or.inl ?_)⟩
      by_cases hKKO : TileEvent.get_location_key (f.x + sx) (f.y + sy) = f.location_key
      · rw [hKKO, reloc_remove_self _ hwf.reg_nodup]
        have hbO : alookup g.registry f.location_key = some b := by
          rw [← hKKO, ← hNK]
          exact hbN
        rw [hbO, Option.getD_some]
        have hfil : eid ∈ b.filter (fun i => i ≠ fid) := mem_filter_ne hbmem hne'
        rw [if_neg (List.ne_nil_of_mem hfil), Option.getD_some]
        exact hfil
      · rw [reloc_remove_ne _ hKKO, ← hNK, hbN, Option.getD_some]
        exact hbmem
    · rw [reloc_insert_ne _ hNK]
      by_cases hNKO : TileEvent.get_location_key nx ny = f.location_key
      · rw [hNKO, reloc_remove_self _ hwf.reg_nodup]
        have hbO : alookup g.registry f.location_key = some b := by
          rw [← hNKO]
          exact hbN
        rw [hbO, Option.getD_some]
        have hfil : eid ∈ b.filter (fun i => i ≠ fid) := mem_filter_ne hbmem hne'
        rw [if_neg (List.ne_nil_of_mem hfil)]
        exact ⟨_, rfl, hfil⟩
      · rw [reloc_remove_ne _ hNKO]
        exact ⟨b, hbN, hbmem⟩
  · rw [relocate_core_registry]
    intro b' hb'
    by_cases hOK : TileEvent.get_location_key ox oy =
        TileEvent.get_location_key (f.x + sx) (f.y + sy)
    · rw [hOK, reloc_insert_self] at hb'
      rw [Option.some.injEq] at hb'
      rw [← hb']
      intro hmem
      rcases List.mem_append.mp hmem with h1 | h1
      · cases hR : alookup (reloc_remove g.registry f.location_key fid)
            (TileEvent.get_location_key (f.x + sx) (f.y + sy)) with
        | none => rw [hR] at h1; simp at h1
        | some bR =>
          rw [hR, Option.getD_some] at h1
          by_cases hKKO : TileEvent.get_location_key (f.x + sx) (f.y + sy) = f.location_key
          · rw [hKKO, reloc_remove_self _ hwf.reg_nodup] at hR
            by_cases hfe : ((alookup g.registry f.location_key).getD []).filter
                (fun i => i ≠ fid) = []
            · rw [if_pos hfe] at hR
              cases hR
            · rw [if_neg hfe] at hR
              rw [Option.some.injEq] at hR
              rw [← hR] at h1
              have h2 := mem_of_mem_filter_ne h1
              cases hg : alookup g.registry f.location_key with
              | none => rw [hg] at h2; simp at h2
              | some b0 =>
                rw [hg, Option.getD_some] at h2
                have hb0 : alookup g.registry (TileEvent.get_location_key ox oy) =
                    some b0 := by
                  rw [hOK, hKKO]
                  exact hg
                exact hO b0 hb0 h2
          · rw [reloc_remove_ne _ hKKO] at hR
            have hb0 : alookup g.registry (TileEvent.get_location_key ox oy) =
                some bR := by
              rw [hOK]
              exact hR
            exact hO bR hb0 h1
      · rw [List.mem_singleton] at h1
        exact hne' h1
    · rw [reloc_insert_ne _ hOK] at hb'
      by_cases hOKO : TileEvent.get_location_key ox oy = f.location_key
      · rw [hOKO, reloc_remove_self _ hwf.reg_nodup] at hb'
        by_cases hfe : ((alookup g.registry f.location_key).getD []).filter
            (fun i => i ≠ fid) = []
        · rw [if_pos hfe] at hb'
          cases hb'
        · rw [if_neg hfe] at hb'
          rw [Option.some.injEq] at hb'
          rw [← hb']
          intro hmem
          have h2 := mem_of_mem_filter_ne hmem
          cases hg : alookup g.registry f.location_key with
          | none => rw [hg] at h2; simp at h2
          | some b0 =>
            rw [hg, Option.getD_some] at h2
            have hb0 : alookup g.registry (TileEvent.get_location_key ox oy) =
                some b0 := by
              rw [hOKO]
              exact hg
            exact hO b0 hb0 h2
      · rw [reloc_remove_ne _ hOKO] at hb'
        exact hO b' hb'

/-! ### Lifting to the full per-event relocation step and its fold -/

theorem relocate_event_wf {g : GameState} (hwf : RegistryWF g) (sx sy tl : Int)
    (eid : Nat) : RegistryWF (relocate_event sx sy tl g eid) := by
  rw [relocate_event]
  cases he : alookup g.store eid with
  | none => exact hwf
  | some e =>
    dsimp only
    exact registry_wf_deactivate_old
      (registry_wf_active_jump (relocate_core_wf hwf he sx sy) tl _) tl e.x e.y

theorem relocate_event_relocates {g : GameState} {eid : Nat} {e : TileEvent}
    (hwf : RegistryWF g) (he : alookup g.store eid = some e) {sx sy : Int}
    (hsh : ¬(sx = 0 ∧ sy = 0)) (tl : Int) :
    relocated_to (relocate_event sx sy tl g eid) eid e.x e.y (e.x + sx) (e.y + sy) := by
  rw [relocate_event, he]
  dsimp only
  exact relocated_to_deactivate_old
    (relocated_to_active_jump (relocate_core_relocated hwf he hsh) tl _) tl e.x e.y

theorem relocated_to_relocate_event {g : GameState} {eid fid : Nat} (hwf : RegistryWF g)
    (hne : fid ≠ eid) {ox oy nx ny : Int} (hP : relocated_to g eid ox oy nx ny)
    (sx sy tl : Int) : relocated_to (relocate_event sx sy tl g fid) eid ox oy nx ny := by
  rw [relocate_event]
  cases hf : alookup g.store fid with
  | none => exact hP
  | some f =>
    dsimp only
    exact relocated_to_deactivate_old
      (relocated_to_active_jump (relocated_to_relocate_core hwf hne hP sx sy) tl _)
      tl f.x f.y

theorem relocate_event_other_placement {g : GameState} {eid fid : Nat} (hne : fid ≠ eid)
    (sx sy tl : Int) :
    opt_same_placement (alookup g.store eid)
      (alookup (relocate_event sx sy tl g fid).store eid) := by
  rw [relocate_event]
  cases hf : alookup g.store fid with
  | none => exact opt_same_placement_refl _
  | some f =>
    dsimp only
    have hcore : alookup (relocate_core sx sy g fid f).store eid = alookup g.store eid := by
      rw [relocate_core_store, alookup_aset_ne _ (fun hh => hne hh.symm)]
    have hflags : flags_only (relocate_core sx sy g fid f).store
        (deactivate_old_surroundings tl f.x f.y
          (active_jump_surroundings tl (get_surroundings (f.x + sx) (f.y + sy) 2)
            (relocate_core sx sy g fid f))).store :=
      flags_only_trans (active_jump_flags tl _ _) (deactivate_old_flags tl f.x f.y _)
    have := hflags.2 eid
    rw [hcore] at this
    exact this

theorem opt_same_placement_some {e : TileEvent} {o : Option TileEvent}
    (h : opt_same_placement (some e) o) :
    ∃ e', o = some e' ∧ same_placement e e' := by
  cases o with
  | none => exact absurd h (by simp [opt_same_placement])
  | some e' => exact ⟨e', rfl, h⟩

theorem foldl_relocate_wf (sx sy tl : Int) (l : List Nat) {g : GameState}
    (hwf : RegistryWF g) : RegistryWF (l.foldl (relocate_event sx sy tl) g) := by
  induction l generalizing g with
  | nil => exact hwf
  | cons a rest ih =>
    rw [List.foldl_cons]
    exact ih (relocate_event_wf hwf sx sy tl a)

theorem foldl_relocate_placement (sx sy tl : Int) (l : List Nat) {g : GameState}
    {eid : Nat} (h : eid ∉ l) :
    opt_same_placement (alookup g.store eid)
      (alookup ((l.foldl (relocate_event sx sy tl) g)).store eid) := by
  induction l generalizing g with
  | nil => exact opt_same_placement_refl _
  | cons a rest ih =>
    rw [List.foldl_cons]
    have hne : a ≠ eid := fun hh => h (hh ▸ List.mem_cons_self a rest)
    exact opt_same_placement_trans (relocate_event_other_placement hne sx sy tl)
      (ih (fun hh => h (List.mem_cons_of_mem a hh)))

theorem foldl_relocate_stable (sx sy tl : Int) (l : List Nat) {g : GameState}
    {eid : Nat} {ox oy nx ny : Int} (hwf : RegistryWF g) (h : eid ∉ l)
    (hP : relocated_to g eid ox oy nx ny) :
    relocated_to (l.foldl (relocate_event sx sy tl) g) eid ox oy nx ny := by
  induction l generalizing g with
  | nil => exact hP
  | cons a rest ih =>
    rw [List.foldl_cons]
    have hne : a ≠ eid := fun hh => h (hh ▸ List.mem_cons_self a rest)
    exact ih (relocate_event_wf hwf sx sy tl a)
      (fun hh => h (List.mem_cons_of_mem a hh))
      (relocated_to_relocate_event hwf hne hP sx sy tl)

theorem foldl_relocate_main (sx sy tl : Int) {l : List Nat} {g : GameState} {eid : Nat}
    {e : TileEvent} (hwf : RegistryWF g) (hnd : l.Nodup) (hmem : eid ∈ l)
    (he : alookup g.store eid = some e) (hsh : ¬(sx = 0 ∧ sy = 0)) :
    relocated_to (l.foldl (relocate_event sx sy tl) g) eid e.x e.y (e.x + sx) (e.y + sy) := by
  obtain ⟨l1, l2, rfl⟩ := List.append_of_mem hmem
  have hnotin : eid ∉ l1 ∧ eid ∉ l2 := by
    rw [List.nodup_append] at hnd
    obtain ⟨h1, h2, h3⟩ := hnd
    refine ⟨fun hh => h3 hh (List.mem_cons_self eid l2), ?_⟩
    rw [List.nodup_cons] at h2
    exact h2.1
  rw [List.foldl_append, List.foldl_cons]
  have hwf1 : RegistryWF (l1.foldl (relocate_event sx sy tl) g) :=
    foldl_relocate_wf sx sy tl l1 hwf
  have hpl := foldl_relocate_placement sx sy tl l1 (g := g) hnotin.1
  rw [he] at hpl
  obtain ⟨e1, he1, hsp⟩ := opt_same_placement_some hpl
  have hrel := relocate_event_relocates hwf1 he1 hsh tl
  rw [hsp.2.1, hsp.2.2.1] at hrel
  exact foldl_relocate_stable sx sy tl l2
    (relocate_event_wf hwf1 sx sy tl eid) hnotin.2 hrel

/-! ### Unfolding the push entry points -/

theorem event_shift_nonzero {d : Direction} (h : d ∈ cardinal_directions) :
    ¬((event_shift d).1 = 0 ∧ (event_shift d).2 = 0) := by
  revert h
  cases d <;> decide

theorem fire_push_movement_game (target_only : Bool) (data : PushData)
    (io : InteractableObject)
    (hfired : target_only = true ∨
      classify_push_quadrant data.hero_x data.hero_y io.sprite_x io.sprite_y =
        some data.trying_to_push_direction) :
    (fire_push_movement target_only data io).1.game =
      io.object_events.foldl
        (relocate_event (event_shift data.trying_to_push_direction).1
          (event_shift data.trying_to_push_direction).2
          (io.collide_layer_shift + io.base_collider_layer)) data.game := by
  cases target_only with
  | true => simp [fire_push_movement]
  | false =>
    rcases hfired with h | h
    · exact absurd h (by decide)
    · simp [fire_push_movement, h]

theorem fire_push_movement_not_fired (data : PushData) (io : InteractableObject)
    (h : classify_push_quadrant data.hero_x data.hero_y io.sprite_x io.sprite_y ≠
      some data.trying_to_push_direction) :
    fire_push_movement false data io = (data, io) := by
  rw [fire_push_movement]
  rw [if_neg]
  intro hc
  rcases hc with hc | hc
  · exact absurd hc (by decide)
  · exact h hc

theorem fire_push_movement_game_wf (t : Bool) (data : PushData) (io : InteractableObject)
    (hwf : RegistryWF data.game) : RegistryWF (fire_push_movement t data io).1.game := by
  cases t with
  | true =>
    rw [fire_push_movement_game true data io (Or.inl rfl)]
    exact foldl_relocate_wf _ _ _ _ hwf
  | false =>
    by_cases hc : classify_push_quadrant data.hero_x data.hero_y io.sprite_x io.sprite_y =
        some data.trying_to_push_direction
    · rw [fire_push_movement_game false data io (Or.inr hc)]
      exact foldl_relocate_wf _ _ _ _ hwf
    · rw [fire_push_movement_not_fired data io hc]
      exact hwf

theorem normal_push_fired (data : PushData) (io : InteractableObject)
    (hc : data.trying_to_push = true ∧
      data.trying_to_push_direction ∈ cardinal_directions ∧
      data.trying_to_push_direction = data.actual_direction ∧
      data.casting_psynergy = false ∧ data.jumping = false) :
    normal_push data io =
      ({ (fire_push_movement false data io).1 with
          trying_to_push := false
          push_timer := none },
        (fire_push_movement false data io).2) := by
  rw [normal_push, if_pos hc]

theorem normal_push_rejected (data : PushData) (io : InteractableObject)
    (hc : ¬(data.trying_to_push = true ∧
      data.trying_to_push_direction ∈ cardinal_directions ∧
      data.trying_to_push_direction = data.actual_direction ∧
      data.casting_psynergy = false ∧ data.jumping = false)) :
    normal_push data io =
      ({ data with
          trying_to_push := false
          push_timer := none }, io) := by
  rw [normal_push, if_neg hc]

theorem normal_push_game_wf (data : PushData) (io : InteractableObject)
    (hwf : RegistryWF data.game) : RegistryWF (normal_push data io).1.game := by
  by_cases hc : data.trying_to_push = true ∧
      data.trying_to_push_direction ∈ cardinal_directions ∧
      data.trying_to_push_direction = data.actual_direction ∧
      data.casting_psynergy = false ∧ data.jumping = false
  · rw [normal_push_fired data io hc]
    exact fire_push_movement_game_wf false data io hwf
  · rw [normal_push_rejected data io hc]
    exact hwf

theorem run_push_wf {g : GameState} (hwf : RegistryWF g) (c : PushCall) :
    RegistryWF (run_push g c) := by
  rw [run_push]
  split
  · exact fire_push_movement_game_wf true { c.data with game := g } c.io hwf
  · exact normal_push_game_wf { c.data with game := g } c.io hwf

theorem run_pushes_wf {g : GameState} (hwf : RegistryWF g) (cs : List PushCall) :
    RegistryWF (run_pushes g cs) := by
  rw [run_pushes]
  induction cs generalizing g with
  | nil => exact hwf
  | cons c rest ih =>
    rw [List.foldl_cons]
    exact ih (run_push_wf hwf c)

/-! ### The old-surroundings scan deactivates exactly the matching events -/

theorem write_active_at_some {ev : TileEvent} {d : Direction} {j : Nat}
    (hix : idx_of ev.activation_directions d = some j) (v : Bool) :
    ev.write_active_at d v = { ev with active := ev.active.set j v } := by
  rw [TileEvent.write_active_at, hix]

theorem write_active_at_none {ev : TileEvent} {d : Direction}
    (hix : idx_of ev.activation_directions d = none) (v : Bool) :
    ev.write_active_at d v = { ev with activeNegOne := some v } := by
  rw [TileEvent.write_active_at, hix]

theorem read_active_at_some {ev : TileEvent} {d : Direction} {j : Nat}
    (hix : idx_of ev.activation_directions d = some j) :
    ev.read_active_at d = ev.active[j]? := by
  rw [TileEvent.read_active_at, hix]

theorem read_active_at_none {ev : TileEvent} {d : Direction}
    (hix : idx_of ev.activation_directions d = none) :
    ev.read_active_at d = ev.activeNegOne := by
  rw [TileEvent.read_active_at, hix]

theorem deactivate_at_read_false (ev : TileEvent) (d : Direction) :
    truthy ((ev.deactivate_at d).read_active_at d) = false := by
  cases hix : idx_of ev.activation_directions d with
  | some j =>
    rw [TileEvent.deactivate_at, write_active_at_some hix,
      read_active_at_some (show idx_of ({ ev with active := ev.active.set j false
        } : TileEvent).activation_directions d = some j from hix)]
    show truthy ((ev.active.set j false)[j]?) = false
    rw [List.getElem?_set_self']
    cases ev.active[j]? <;> rfl
  | none =>
    rw [TileEvent.deactivate_at, write_active_at_none hix,
      read_active_at_none (show idx_of ({ ev with activeNegOne := some false
        } : TileEvent).activation_directions d = none from hix)]
    rfl

theorem deactivate_at_read_preserve {ev : TileEvent} {d : Direction}
    (h : truthy (ev.read_active_at d) = false) (d2 : Direction) :
    truthy ((ev.deactivate_at d2).read_active_at d) = false := by
  cases hix2 : idx_of ev.activation_directions d2 with
  | some j2 =>
    rw [TileEvent.deactivate_at, write_active_at_some hix2]
    cases hix : idx_of ev.activation_directions d with
    | some j =>
      rw [read_active_at_some (show idx_of ({ ev with active := ev.active.set j2 false
        } : TileEvent).activation_directions d = some j from hix)]
      rw [read_active_at_some hix] at h
      show truthy ((ev.active.set j2 false)[j]?) = false
      by_cases hjj : j2 = j
      · subst hjj
        rw [List.getElem?_set_self']
        cases ev.active[j2]? <;> rfl
      · rw [List.getElem?_set_ne hjj]
        exact h
    | none =>
      rw [read_active_at_none (show idx_of ({ ev with active := ev.active.set j2 false
        } : TileEvent).activation_directions d = none from hix)]
      rw [read_active_at_none hix] at h
      exact h
  | none =>
    rw [TileEvent.deactivate_at, write_active_at_none hix2]
    cases hix : idx_of ev.activation_directions d with
    | some j =>
      rw [read_active_at_some (show idx_of ({ ev with activeNegOne := some false
        } : TileEvent).activation_directions d = some j from hix)]
      rw [read_active_at_some hix] at h
      exact h
    | none =>
      rw [read_active_at_none (show idx_of ({ ev with activeNegOne := some false
        } : TileEvent).activation_directions d = none from hix)]
      rfl

theorem deact_step_preserve {st : List (Nat × TileEvent)} {j : Nat} {d : Direction}
    (hD : deactivated_at st j d) (tl : Int) (d2 : Direction) (i : Nat) :
    deactivated_at (deactivate_jump_step tl d2 st i) j d := by
  obtain ⟨ev', hl, hread⟩ := hD
  rw [deactivate_jump_step]
  cases hli : alookup st i with
  | none => exact ⟨ev', hl, hread⟩
  | some ev =>
    dsimp only
    by_cases hc : ev.type = event_types.jump ∧ tl ∈ ev.activation_collision_layers ∧
        ev.dynamic = false
    · rw [if_pos hc]
      by_cases hij : j = i
      · subst hij
        rw [hl] at hli
        rw [Option.some.injEq] at hli
        subst hli
        exact ⟨ev'.deactivate_at d2, alookup_aset_self _ _ _,
          deactivate_at_read_preserve hread d2⟩
      · exact ⟨ev', by rw [alookup_aset_ne _ hij]; exact hl, hread⟩
    · rw [if_neg hc]
      exact ⟨ev', hl, hread⟩

theorem deact_fold_preserve {st : List (Nat × TileEvent)} {j : Nat} {d : Direction}
    (hD : deactivated_at st j d) (tl : Int) (d2 : Direction) (bucket : List Nat) :
    deactivated_at (bucket.foldl (deactivate_jump_step tl d2) st) j d := by
  induction bucket generalizing st with
  | nil => exact hD
  | cons i rest ih =>
    rw [List.foldl_cons]
    exact ih (deact_step_preserve hD tl d2 i)

theorem deact_surr_preserve {g : GameState} {j : Nat} {d : Direction}
    (hD : deactivated_at g.store j d) (tl : Int) (s : Surrounding) :
    deactivated_at (deactivate_surrounding_jumps tl s g).store j d := by
  rw [deactivate_surrounding_jumps]
  cases alookup g.registry (TileEvent.get_location_key s.x s.y) with
  | none => exact hD
  | some bucket => exact deact_fold_preserve hD tl _ bucket

theorem deact_surr_fold_preserve {g : GameState} {j : Nat} {d : Direction}
    (hD : deactivated_at g.store j d) (tl : Int) (ss : List Surrounding) :
    deactivated_at ((ss.foldl (fun g s => deactivate_surrounding_jumps tl s g) g)).store
      j d := by
  induction ss generalizing g with
  | nil => exact hD
  | cons s rest ih =>
    rw [List.foldl_cons]
    exact ih (deact_surr_preserve hD tl s)

theorem deact_surr_fold_registry (tl : Int) (ss : List Surrounding) (g : GameState) :
    ((ss.foldl (fun g s => deactivate_surrounding_jumps tl s g) g)).registry =
      g.registry := by
  induction ss generalizing g with
  | nil => rfl
  | cons s rest ih =>
    rw [List.foldl_cons, ih, deactivate_surrounding_registry]

theorem deact_surr_fold_flags (tl : Int) (ss : List Surrounding) (g : GameState) :
    flags_only g.store
      ((ss.foldl (fun g s => deactivate_surrounding_jumps tl s g) g)).store := by
  induction ss generalizing g with
  | nil => exact flags_only_refl _
  | cons s rest ih =>
    rw [List.foldl_cons]
    exact flags_only_trans (deactivate_surrounding_flags tl s g) (ih _)

theorem deact_fold_establish {bucket : List Nat} {st : List (Nat × TileEvent)} {i : Nat}
    {ev : TileEvent} (hmem : i ∈ bucket) (hl : alookup st i = some ev)
    (hc : ev.type = event_types.jump ∧ tl ∈ ev.activation_collision_layers ∧
      ev.dynamic = false) (d : Direction) :
    deactivated_at (bucket.foldl (deactivate_jump_step tl d) st) i d := by
  obtain ⟨b1, b2, rfl⟩ := List.append_of_mem hmem
  rw [List.foldl_append, List.foldl_cons]
  have hfl : flags_only st (b1.foldl (deactivate_jump_step tl d) st) :=
    flags_only_foldl _ (flags_only_deactivate_jump_step tl d) b1 st
  obtain ⟨ev1, hl1, hsp⟩ := flags_only_lookup_some hfl hl
  have hc1 : ev1.type = event_types.jump ∧ tl ∈ ev1.activation_collision_layers ∧
      ev1.dynamic = false :=
    ⟨by rw [hsp.1]; exact hc.1, by rw [hsp.2.2.2.2.2.1]; exact hc.2.1,
      by rw [hsp.2.2.2.2.2.2.2.1]; exact hc.2.2⟩
  have hstep : deactivated_at
      (deactivate_jump_step tl d (b1.foldl (deactivate_jump_step tl d) st) i) i d := by
    rw [deactivate_jump_step, hl1]
    dsimp only
    rw [if_pos hc1]
    exact ⟨ev1.deactivate_at d, alookup_aset_self _ _ _, deactivate_at_read_false ev1 d⟩
  exact deact_fold_preserve hstep tl d b2

theorem deact_old_establish {tl ox oy : Int} {g : GameState} {s : Surrounding}
    {bucket : List Nat} {i : Nat} {ev : TileEvent}
    (hs : s ∈ get_surroundings ox oy 2)
    (hb : alookup g.registry (TileEvent.get_location_key s.x s.y) = some bucket)
    (hmem : i ∈ bucket) (hl : alookup g.store i = some ev)
    (hc : ev.type = event_types.jump ∧ tl ∈ ev.activation_collision_layers ∧
      ev.dynamic = false) :
    deactivated_at (deactivate_old_surroundings tl ox oy g).store i
      (get_opposite_direcion s.direction) := by
  rw [deactivate_old_surroundings]
  obtain ⟨ss1, ss2, heq⟩ := List.append_of_mem hs
  rw [heq, List.foldl_append, List.foldl_cons]
  have hreg1 : alookup ((ss1.foldl (fun g s => deactivate_surrounding_jumps tl s g)
      g)).registry (TileEvent.get_location_key s.x s.y) = some bucket := by
    rw [deact_surr_fold_registry]
    exact hb
  obtain ⟨ev1, hl1, hsp⟩ := flags_only_lookup_some (deact_surr_fold_flags tl ss1 g) hl
  have hc1 : ev1.type = event_types.jump ∧ tl ∈ ev1.activation_collision_layers ∧
      ev1.dynamic = false :=
    ⟨by rw [hsp.1]; exact hc.1, by rw [hsp.2.2.2.2.2.1]; exact hc.2.1,
      by rw [hsp.2.2.2.2.2.2.2.1]; exact hc.2.2⟩
  have hstep : deactivated_at (deactivate_surrounding_jumps tl s
      ((ss1.foldl (fun g s => deactivate_surrounding_jumps tl s g) g))).store i
      (get_opposite_direcion s.direction) := by
    rw [deactivate_surrounding_jumps, hreg1]
    exact deact_fold_establish hmem hl1 hc1 _
  exact deact_surr_fold_preserve hstep tl ss2

theorem deact_step_untouched {st : List (Nat × TileEvent)} {i : Nat} {ev : TileEvent}
    (hl : alookup st i = some ev)
    (hnc : ¬(ev.type = event_types.jump ∧ tl ∈ ev.activation_collision_layers ∧
      ev.dynamic = false)) (d2 : Direction) (i' : Nat) :
    alookup (deactivate_jump_step tl d2 st i') i = some ev := by
  rw [deactivate_jump_step]
  cases hli' : alookup st i' with
  | none => exact hl
  | some ev2 =>
    dsimp only
    by_cases hc2 : ev2.type = event_types.jump ∧ tl ∈ ev2.activation_collision_layers ∧
        ev2.dynamic = false
    · rw [if_pos hc2]
      by_cases hii : i = i'
      · subst hii
        rw [hl] at hli'
        rw [Option.some.injEq] at hli'
        subst hli'
        exact absurd hc2 hnc
      · rw [alookup_aset_ne _ hii]
        exact hl
    · rw [if_neg hc2]
      exact hl

theorem deact_fold_untouched {st : List (Nat × TileEvent)} {i : Nat} {ev : TileEvent}
    (hl : alookup st i = some ev)
    (hnc : ¬(ev.type = event_types.jump ∧ tl ∈ ev.activation_collision_layers ∧
      ev.dynamic = false)) (d2 : Direction) (bucket : List Nat) :
    alookup (bucket.foldl (deactivate_jump_step tl d2) st) i = some ev := by
  induction bucket generalizing st with
  | nil => exact hl
  | cons i' rest ih =>
    rw [List.foldl_cons]
    exact ih (deact_step_untouched hl hnc d2 i')

theorem deact_old_untouched {tl ox oy : Int} {g : GameState} {i : Nat} {ev : TileEvent}
    (hl : alookup g.store i = some ev)
    (hnc : ¬(ev.type = event_types.jump ∧ tl ∈ ev.activation_collision_layers ∧
      ev.dynamic = false)) :
    alookup (deactivate_old_surroundings tl ox oy g).store i = some ev := by
  rw [deactivate_old_surroundings]
  generalize get_surroundings ox oy 2 = ss
  induction ss generalizing g with
  | nil => exact hl
  | cons s rest ih =>
    rw [List.foldl_cons]
    refine ih (g := deactivate_surrounding_jumps tl s g) ?_
    rw [deactivate_surrounding_jumps]
    cases alookup g.registry (TileEvent.get_location_key s.x s.y) with
    | none => exact hl
    | some bucket => exact deact_fold_untouched hl hnc _ bucket

/-! ### `indexOf` characterization for the activation lookups -/

theorem idx_of_none_of_not_mem {l : List Direction} {d : Direction} (h : d ∉ l) :
    idx_of l d = none := by
  induction l with
  | nil => rfl
  | cons a rest ih =>
    rw [idx_of]
    rw [if_neg (fun hh => h (by rw [hh]; exact List.mem_cons_self a rest)),
      ih (fun hh => h (List.mem_cons_of_mem a hh))]
    rfl

theorem idx_of_getElem {l : List Direction} {d : Direction} {j : Nat}
    (h : idx_of l d = some j) : l[j]? = some d := by
  induction l generalizing j with
  | nil => cases h
  | cons a rest ih =>
    rw [idx_of] at h
    by_cases hd : d = a
    · rw [if_pos hd] at h
      rw [Option.some.injEq] at h
      subst h
      rw [hd, List.getElem?_cons_zero]
    · rw [if_neg hd] at h
      cases hr : idx_of rest d with
      | none => rw [hr] at h; cases h
      | some j' =>
        rw [hr] at h
        rw [show Option.map (fun x => x + 1) (some j') = some (j' + 1) from rfl,
          Option.some.injEq] at h
        subst h
        rw [List.getElem?_cons_succ]
        exact ih hr

theorem idx_of_of_getElem_nodup {l : List Direction} {d : Direction} {j : Nat}
    (hnd : l.Nodup) (h : l[j]? = some d) : idx_of l d = some j := by
  induction l generalizing j with
  | nil => simp at h
  | cons a rest ih =>
    rw [List.nodup_cons] at hnd
    cases j with
    | zero =>
      rw [List.getElem?_cons_zero, Option.some.injEq] at h
      rw [idx_of, if_pos h.symm]
    | succ j' =>
      rw [List.getElem?_cons_succ] at h
      have hmem : d ∈ rest := by
        obtain ⟨hlt, hget⟩ := List.getElem?_eq_some_iff.mp h
        exact hget ▸ List.getElem_mem hlt
      rw [idx_of, if_neg (fun hh => hnd.1 (by rw [← hh]; exact hmem)), ih hnd.2 h]
      rfl

/-! ### Identity registry: id assignment -/

theorem construct_all_ids : ∀ (args : List TileEventArgs) (r : EventIdentityRegistry),
    (construct_all r args).2 = List.range' r.id_incrementer args.length := by
  intro args
  induction args with
  | nil => intro r; rfl
  | cons a rest ih =>
    intro r
    rw [construct_all]
    show (TileEvent.construct r a).2.id :: (construct_all (TileEvent.construct r a).1 rest).2 =
      List.range' r.id_incrementer (rest.length + 1)
    rw [ih]
    rfl

/-! ### Trace-order lemmas for the asynchronous completion barrier -/

theorem count_map_eq_zero {f : Nat → PushAction} {l : List Nat} {a : PushAction}
    (h : ∀ x, f x ≠ a) : (l.map f).count a = 0 := by
  rw [List.count_eq_zero]
  intro hmem
  rcases List.mem_map.mp hmem with ⟨x, -, hx⟩
  exact h x hx

theorem not_mem_map_of_ne {f : Nat → PushAction} {l : List Nat} {a : PushAction}
    (h : ∀ x, f x ≠ a) : a ∉ l.map f := by
  intro hmem
  rcases List.mem_map.mp hmem with ⟨x, -, hx⟩
  exact h x hx

theorem unique_split {α : Type} {a : α} : ∀ {l1 r1 l2 r2 : List α},
    l1 ++ a :: r1 = l2 ++ a :: r2 → a ∉ l1 → a ∉ l2 → l1 = l2 ∧ r1 = r2 := by
  intro l1
  induction l1 with
  | nil =>
    intro r1 l2 r2 h h1 h2
    cases l2 with
    | nil => simpa using h
    | cons b l2' =>
      simp only [List.nil_append, List.cons_append, List.cons.injEq] at h
      exact absurd (h.1 ▸ List.mem_cons_self b l2') (h.1 ▸ h2)
  | cons b l1' ih =>
    intro r1 l2 r2 h h1 h2
    cases l2 with
    | nil =>
      simp only [List.nil_append, List.cons_append, List.cons.injEq] at h
      exact absurd (h.1 ▸ List.mem_cons_self b l1') (h.1 ▸ h1)
    | cons c l2' =>
      simp only [List.cons_append, List.cons.injEq] at h
      obtain ⟨e1, e2⟩ := ih h.2 (fun hh => h1 (List.mem_cons_of_mem b hh))
        (fun hh => h2 (h.1 ▸ List.mem_cons_of_mem c hh))
      exact ⟨by rw [h.1, e1], e2⟩

theorem single_occurrence_split {α : Type} [DecidableEq α] {a : α} {L R pre post : List α}
    (hL : a ∉ L) (hR : a ∉ R) (h : L ++ a :: R = pre ++ a :: post) :
    pre = L ∧ post = R := by
  have hcL := List.count_eq_zero.mpr hL
  have hcR := List.count_eq_zero.mpr hR
  have hc : (L ++ a :: R).count a = 1 := by
    rw [List.count_append, List.count_cons_self, hcL, hcR]
  rw [h, List.count_append, List.count_cons_self] at hc
  have hnpre : a ∉ pre := List.count_eq_zero.mp (by omega)
  exact unique_split h.symm hnpre hL

/-- The concrete witness state is well formed. -/
theorem wState_wf : RegistryWF wState := by
  constructor
  · decide
  · decide
  · decide
  · decide
  · intro p hp i hi
    rw [show wState.registry = [(TileEvent.get_location_key 3 3, [0])] from rfl,
      List.mem_singleton] at hp
    subst hp
    rw [List.mem_singleton] at hi
    subst hi
    exact ⟨wEvent, by decide⟩
  · intro p hp
    rw [show wState.store = [(0, wEvent)] from rfl, List.mem_singleton] at hp
    subst hp
    exact ⟨[0], by decide, by decide⟩
  · decide

/-! ## Claim theorems -/

/-- **C3**: for a non-target-only push, with
`positive_limit = hero.x + (-sprite.y - sprite.x)` and
`negative_limit = -hero.x + (-sprite.y + sprite.x)`, the classifier always
assigns exactly one quadrant by boundary-inclusive comparison of `-hero.y`
against both limits, ties resolving in the coded priority order
`down`, `left`, `up`; the relocation runs only if the classified quadrant
equals the requested direction; and for `positive_limit = 10`,
`negative_limit = -10`, `hero.y = -15` the classification is `down`. -/
theorem push_direction_validation :
    (∀ hx hy sx sy : Int, ∃ d, classify_push_quadrant hx hy sx sy = some d) ∧
    (∀ hx hy sx sy : Int,
      (classify_push_quadrant hx hy sx sy = some Direction.down ↔
        -hy ≥ hx + (-sy - sx) ∧ -hy ≥ -hx + (-sy + sx)) ∧
      (classify_push_quadrant hx hy sx sy = some Direction.left ↔
        ¬(-hy ≥ hx + (-sy - sx) ∧ -hy ≥ -hx + (-sy + sx)) ∧
        (-hy ≤ hx + (-sy - sx) ∧ -hy ≥ -hx + (-sy + sx))) ∧
      (classify_push_quadrant hx hy sx sy = some Direction.up ↔
        ¬(-hy ≥ hx + (-sy - sx) ∧ -hy ≥ -hx + (-sy + sx)) ∧
        ¬(-hy ≤ hx + (-sy - sx) ∧ -hy ≥ -hx + (-sy + sx)) ∧
        (-hy ≤ hx + (-sy - sx) ∧ -hy ≤ -hx + (-sy + sx))) ∧
      (classify_push_quadrant hx hy sx sy = some Direction.right ↔
        ¬(-hy ≥ hx + (-sy - sx) ∧ -hy ≥ -hx + (-sy + sx)) ∧
        ¬(-hy ≤ hx + (-sy - sx) ∧ -hy ≥ -hx + (-sy + sx)) ∧
        ¬(-hy ≤ hx + (-sy - sx) ∧ -hy ≤ -hx + (-sy + sx)) ∧
        (-hy ≥ hx + (-sy - sx) ∧ -hy ≤ -hx + (-sy + sx)))) ∧
    (∀ (data : PushData) (io : InteractableObject),
      classify_push_quadrant data.hero_x data.hero_y io.sprite_x io.sprite_y ≠
        some data.trying_to_push_direction →
      fire_push_movement false data io = (data, io)) ∧
    classify_push_quadrant 10 (-15) 0 0 = some Direction.down := by
  refine ⟨?_, ?_, fire_push_movement_not_fired, by decide⟩
  · intro hx hy sx sy
    rw [classify_push_quadrant]
    split_ifs with h1 h2 h3 h4
    · exact ⟨_, rfl⟩
    · exact ⟨_, rfl⟩
    · exact ⟨_, rfl⟩
    · exact ⟨_, rfl⟩
    · exact absurd trivial (fun _ => by omega)
  · intro hx hy sx sy
    refine ⟨?_, ?_, ?_, ?_⟩ <;> rw [classify_push_quadrant] <;> split_ifs with h1 h2 h3 h4
    · exact iff_of_true rfl h1
    · exact iff_of_false (by simp) h1
    · exact iff_of_false (by simp) h1
    · exact iff_of_false (by simp) h1
    · exact iff_of_false (by simp) h1
    · exact iff_of_false (by simp) (fun hh => hh.1 h1)
    · exact iff_of_true rfl ⟨h1, h2⟩
    · exact iff_of_false (by simp) (fun hh => h2 hh.2)
    · exact iff_of_false (by simp) (fun hh => h2 hh.2)
    · exact iff_of_false (by simp) (fun hh => h2 hh.2)
    · exact iff_of_false (by simp) (fun hh => hh.1 h1)
    · exact iff_of_false (by simp) (fun hh => hh.2.1 h2)
    · exact iff_of_true rfl ⟨h1, h2, h3⟩
    · exact iff_of_false (by simp) (fun hh => h3 hh.2.2)
    · exact iff_of_false (by simp) (fun hh => h3 hh.2.2)
    · exact iff_of_false (by simp) (fun hh => hh.1 h1)
    · exact iff_of_false (by simp) (fun hh => hh.2.1 h2)
    · exact iff_of_false (by simp) (fun hh => hh.2.2.1 h3)
    · exact iff_of_true rfl ⟨h1, h2, h3, h4⟩
    · exact iff_of_false (by simp) (fun hh => h4 hh.2.2.2)

/-- Witness for C3 at the spec's concrete instance (`hero = (10, -15)`,
sprite at the origin, so the limits are `10` and `-10`). -/
theorem push_direction_validation_witness :
    (∃ d, classify_push_quadrant 10 (-15) 0 0 = some d) ∧
    fire_push_movement false { wData with trying_to_push_direction := Direction.up } wIO =
      ({ wData with trying_to_push_direction := Direction.up }, wIO) ∧
    classify_push_quadrant 10 (-15) 0 0 = some Direction.down :=
  ⟨push_direction_validation.1 10 (-15) 0 0,
    push_direction_validation.2.2.1 { wData with trying_to_push_direction := Direction.up }
      wIO (by decide),
    push_direction_validation.2.2.2⟩

/-- **C4**: a normal push triggers the push movement only when all five entry
conditions hold (request flag set, cardinal direction, direction equals the
facing direction, not casting, not jumping); when any fails, the game state
(event coordinates and registry buckets) and the object are untouched and the
request flag is cleared. -/
theorem normal_push_entry_conditions (data : PushData) (io : InteractableObject) :
    (¬(data.trying_to_push = true ∧
        data.trying_to_push_direction ∈ cardinal_directions ∧
        data.trying_to_push_direction = data.actual_direction ∧
        data.casting_psynergy = false ∧ data.jumping = false) →
      (normal_push data io).1.game = data.game ∧ (normal_push data io).2 = io ∧
      (normal_push data io).1.trying_to_push = false) ∧
    ((data.trying_to_push = true ∧
        data.trying_to_push_direction ∈ cardinal_directions ∧
        data.trying_to_push_direction = data.actual_direction ∧
        data.casting_psynergy = false ∧ data.jumping = false) →
      normal_push data io =
        ({ (fire_push_movement false data io).1 with
            trying_to_push := false
            push_timer := none },
          (fire_push_movement false data io).2)) := by
  constructor
  · intro hc
    rw [normal_push_rejected data io hc]
    exact ⟨rfl, rfl, rfl⟩
  · intro hc
    exact normal_push_fired data io hc

/-- Witness for C4: a push request issued mid-cast is rejected without any
state change beyond clearing the flag. -/
theorem normal_push_entry_conditions_witness :
    (normal_push { wData with casting_psynergy := true } wIO).1.game =
      ({ wData with casting_psynergy := true } : PushData).game ∧
    (normal_push { wData with casting_psynergy := true } wIO).2 = wIO ∧
    (normal_push { wData with casting_psynergy := true } wIO).1.trying_to_push = false :=
  (normal_push_entry_conditions { wData with casting_psynergy := true } wIO).1 (by decide)

/-- **C7**: `is_active(d)` returns true iff at least one elementary direction
of `split(d)` has its activation flag set (for an event whose `active` array
carries no JavaScript `"-1"` property and whose activation directions are
duplicate-free), and splitting a pure cardinal direction yields exactly that
direction. -/
theorem is_active_iff_split_flag (e : TileEvent) (d : Direction)
    (hclean : truthy e.activeNegOne = false) (hnd : e.activation_directions.Nodup) :
    (e.is_active d = true ↔ ∃ pd ∈ split_direction d, ∃ j : Nat,
      e.activation_directions[j]? = some pd ∧ e.active[j]? = some true) ∧
    (∀ c ∈ cardinal_directions, split_direction c = [c]) := by
  refine ⟨?_, by decide⟩
  rw [TileEvent.is_active, List.any_eq_true]
  constructor
  · rintro ⟨pd, hpd, htr⟩
    cases hix : idx_of e.activation_directions pd with
    | none =>
      rw [read_active_at_none hix, hclean] at htr
      cases htr
    | some j =>
      rw [read_active_at_some hix] at htr
      cases haj : e.active[j]? with
      | none => rw [haj] at htr; cases htr
      | some b =>
        rw [haj] at htr
        cases b with
        | false => cases htr
        | true => exact ⟨pd, hpd, j, idx_of_getElem hix, haj⟩
  · rintro ⟨pd, hpd, j, hdj, haj⟩
    refine ⟨pd, hpd, ?_⟩
    rw [read_active_at_some (idx_of_of_getElem_nodup hnd hdj), haj]
    rfl

/-- Witness for C7 at a concrete clean event and direction. -/
theorem is_active_iff_split_flag_witness :
    truthy wEvent.activeNegOne = false ∧ wEvent.activation_directions.Nodup ∧
    ((wEvent.is_active Direction.up = true ↔ ∃ pd ∈ split_direction Direction.up,
      ∃ j : Nat, wEvent.activation_directions[j]? = some pd ∧
        wEvent.active[j]? = some true) ∧
    (∀ c ∈ cardinal_directions, split_direction c = [c])) :=
  ⟨by decide, by decide,
    is_active_iff_split_flag wEvent Direction.up (by decide) (by decide)⟩

/-- **C8** (code bug): the claim states that `activate_at`/`deactivate_at`
with a direction outside `activation_directions` are observable no-ops, as
the spec intends.  The code instead executes
`this.active[this.activation_directions.indexOf(d)] = true` with
`indexOf = -1`, creating the array property `"-1"`, after which `is_active`
reads that property and returns true for a direction the event does not
even have: evaluated at the failing input, `is_active(down)` flips from
false to true. -/
theorem activate_at_missing_direction_not_noop :
    Direction.down ∉ bugEvent.activation_directions ∧
    bugEvent.is_active Direction.down = false ∧
    (bugEvent.activate_at Direction.down).is_active Direction.down = true := by
  decide

/-- **C9**: between two resets, constructed tile events receive distinct,
strictly increasing ids (`id_incrementer`, `id_incrementer + 1`, …, never
reused), and `reset` sets the incrementer to 0 and empties the identity
registry; a map load (modelled from the spec as one reset followed by the
map's constructions) hands out exactly the ids `0, …, n-1`. -/
theorem tile_event_identity :
    (TileEvent.reset.id_incrementer = 0 ∧ TileEvent.reset.events = []) ∧
    (∀ (r : EventIdentityRegistry) (args : List TileEventArgs),
      (construct_all r args).2 = List.range' r.id_incrementer args.length) ∧
    (∀ args : List TileEventArgs,
      (map_load args).2 = List.range args.length ∧
      (map_load args).2.Nodup ∧ (map_load args).2.Pairwise (· < ·)) := by
  refine ⟨⟨rfl, rfl⟩, fun r args => construct_all_ids args r, ?_⟩
  intro args
  have h : (map_load args).2 = List.range args.length := by
    rw [map_load, construct_all_ids args TileEvent.reset]
    exact (List.range_eq_range' _).symm
  exact ⟨h, h ▸ List.nodup_range _, h ▸ List.pairwise_lt_range _⟩

/-- **C10**: after every call to `normal_push` — fired or rejected — the
request flag `trying_to_push` is false and `push_timer` is null; the request
is consumed unconditionally. -/
theorem normal_push_clears_request (data : PushData) (io : InteractableObject) :
    (normal_push data io).1.trying_to_push = false ∧
    (normal_push data io).1.push_timer = none := by
  rw [normal_push]
  exact ⟨rfl, rfl⟩

/-- **C1**: for every successful push in a cardinal direction, each event
owned by the pushed object is shifted by exactly the unit vector of the
direction (`up → (0,-1)`, `down → (0,1)`, `left → (-1,0)`, `right → (1,0)`),
its `location_key` is recomputed to `codec(new x, new y)` — so that after the
push every stored event satisfies `location_key = codec(x, y)` — and the
event is present in the bucket of its new key and absent from every bucket
at its old key. -/
theorem push_relocates_owned_events (target_only : Bool) (data : PushData)
    (io : InteractableObject) (hwf : RegistryWF data.game)
    (hcard : data.trying_to_push_direction ∈ cardinal_directions)
    (hfired : target_only = true ∨
      classify_push_quadrant data.hero_x data.hero_y io.sprite_x io.sprite_y =
        some data.trying_to_push_direction)
    (hnd : io.object_events.Nodup) {eid : Nat} (hmem : eid ∈ io.object_events)
    {e : TileEvent} (he : alookup data.game.store eid = some e) :
    (event_shift Direction.up = (0, -1) ∧ event_shift Direction.down = (0, 1) ∧
      event_shift Direction.left = (-1, 0) ∧ event_shift Direction.right = (1, 0)) ∧
    relocated_to (fire_push_movement target_only data io).1.game eid e.x e.y
      (e.x + (event_shift data.trying_to_push_direction).1)
      (e.y + (event_shift data.trying_to_push_direction).2) ∧
    (∀ p ∈ (fire_push_movement target_only data io).1.game.store,
      p.2.location_key = TileEvent.get_location_key p.2.x p.2.y) := by
  refine ⟨by decide, ?_, ?_⟩
  · rw [fire_push_movement_game _ _ _ hfired]
    exact foldl_relocate_main _ _ _ hwf hnd hmem he (event_shift_nonzero hcard)
  · rw [fire_push_movement_game _ _ _ hfired]
    exact (foldl_relocate_wf _ _ _ _ hwf).keys_coherent

/-- Witness for C1: a target-only push of the one-event object moves the
event from `(3, 3)` to `(3, 4)` (direction `down`). -/
theorem push_relocates_owned_events_witness :
    RegistryWF wState ∧ (0 : Nat) ∈ wIO.object_events ∧
    relocated_to (fire_push_movement true wData wIO).1.game 0 wEvent.x wEvent.y
      (wEvent.x + (event_shift wData.trying_to_push_direction).1)
      (wEvent.y + (event_shift wData.trying_to_push_direction).2) :=
  ⟨wState_wf, by decide,
    (push_relocates_owned_events true wData wIO wState_wf (by decide) (Or.inl rfl)
      (by decide) (by decide) (by decide)).2.1⟩

/-- **C2**: the registry invariant — every present key has a non-empty bucket
(an emptied bucket is deleted immediately), and every stored event is
contained in the bucket at its `location_key` whenever that key is present —
is preserved by every relocation step and holds after any sequence of pushes
from a well-formed state. -/
theorem registry_invariant_preserved :
    (∀ (g : GameState) (sx sy tl : Int) (eid : Nat), RegistryWF g →
      RegistryWF (relocate_event sx sy tl g eid)) ∧
    (∀ (g : GameState) (cs : List PushCall), RegistryWF g →
      (∀ p ∈ (run_pushes g cs).registry, p.2 ≠ []) ∧
      (∀ (i : Nat) (e : TileEvent), alookup (run_pushes g cs).store i = some e →
        ∀ b, alookup (run_pushes g cs).registry e.location_key = some b → i ∈ b)) := by
  constructor
  · intro g sx sy tl eid hwf
    exact relocate_event_wf hwf sx sy tl eid
  · intro g cs hwf
    have h := run_pushes_wf hwf cs
    refine ⟨h.buckets_nonempty, ?_⟩
    intro i e hie b hb
    obtain ⟨b0, hb0, hmem⟩ := h.events_bucketed (i, e) (alookup_mem hie)
    have hbb := hb0.symm.trans hb
    rw [Option.some.injEq] at hbb
    rw [← hbb]
    exact hmem

/-- Witness for C2: the invariant holds after one concrete target-only push
from the concrete well-formed state. -/
theorem registry_invariant_preserved_witness :
    RegistryWF wState ∧
    (∀ p ∈ (run_pushes wState [⟨true, wData, wIO⟩]).registry, p.2 ≠ []) ∧
    (∀ (i : Nat) (e : TileEvent),
      alookup (run_pushes wState [⟨true, wData, wIO⟩]).store i = some e →
      ∀ b, alookup (run_pushes wState [⟨true, wData, wIO⟩]).registry e.location_key =
        some b → i ∈ b) :=
  ⟨wState_wf, registry_invariant_preserved.2 wState [⟨true, wData, wIO⟩] wState_wf⟩

/-- **C5**: during relocation of an owned event, for every tile in the
radius-2 surroundings of the old position, every Jump-type event registered
there that is not dynamic and whose `activation_collision_layers` contain the
target layer ends up deactivated at the direction opposite to the
surrounding tile's offset direction, while events failing the condition (in
particular dynamic jump events) are left completely untouched by the scan. -/
theorem old_surroundings_jump_deactivation (tl ox oy : Int) (g : GameState) :
    ∀ s ∈ get_surroundings ox oy 2,
      ∀ bucket, alookup g.registry (TileEvent.get_location_key s.x s.y) = some bucket →
      ∀ i ∈ bucket, ∀ ev, alookup g.store i = some ev →
        ((ev.type = event_types.jump ∧ tl ∈ ev.activation_collision_layers ∧
            ev.dynamic = false) →
          deactivated_at (deactivate_old_surroundings tl ox oy g).store i
            (get_opposite_direcion s.direction)) ∧
        (¬(ev.type = event_types.jump ∧ tl ∈ ev.activation_collision_layers ∧
            ev.dynamic = false) →
          alookup (deactivate_old_surroundings tl ox oy g).store i = some ev) := by
  intro s hs bucket hb i hi ev hl
  exact ⟨fun hc => deact_old_establish hs hb hi hl hc,
    fun hnc => deact_old_untouched hl hnc⟩

/-- Witness for C5: with the old position `(4, 3)`, the non-dynamic jump
event at `(3, 3)` (offset direction `left`, within radius 2) on the target
layer is deactivated at `right`. -/
theorem old_surroundings_jump_deactivation_witness :
    (⟨3, 3, Direction.left⟩ : Surrounding) ∈ get_surroundings 4 3 2 ∧
    get_opposite_direcion Direction.left = Direction.right ∧
    deactivated_at (deactivate_old_surroundings 1 4 3 wState).store 0
      (get_opposite_direcion Direction.left) :=
  ⟨by decide, by decide,
    (old_surroundings_jump_deactivation 1 4 3 wState ⟨3, 3, Direction.left⟩ (by decide)
      [0] (by decide) 0 (by decide) wEvent (by decide)).1 (by decide)⟩

/-- **C6**: on every successful push the physics subsystem is paused exactly
once, before any registry mutation, and resumed exactly once, only after
every scheduled body transition (the object's body alone in target-only
mode, plus shadow and hero body otherwise) has signaled completion — a
join/barrier over every completion order, not first-wins; the `push_end`
hook, when supplied, runs only after physics has resumed. -/
theorem push_trace_barrier (target_only : Bool) (object_events : List Nat)
    (has_push_end : Bool) (order : List Nat)
    (hperm : order.Perm (List.range (push_sprite_count target_only))) :
    (push_sprite_count true = 1 ∧ push_sprite_count false = 3) ∧
    (push_full_trace target_only object_events has_push_end order).count
      PushAction.pause = 1 ∧
    (push_full_trace target_only object_events has_push_end order).count
      PushAction.resume = 1 ∧
    (∀ pre post, push_full_trace target_only object_events has_push_end order =
        pre ++ PushAction.pause :: post → ∀ e, PushAction.relocate e ∉ pre) ∧
    (∀ pre post, push_full_trace target_only object_events has_push_end order =
        pre ++ PushAction.resume :: post →
      ∀ i, i < push_sprite_count target_only → PushAction.complete i ∈ pre) ∧
    (∀ pre post, push_full_trace target_only object_events has_push_end order =
        pre ++ PushAction.pushEndHook :: post → PushAction.resume ∈ pre) := by
  have hT1 : push_full_trace target_only object_events has_push_end order =
      [] ++ PushAction.pause :: (object_events.map PushAction.relocate ++
        ((List.range (push_sprite_count target_only)).map PushAction.schedule ++
          (order.map PushAction.complete ++ (PushAction.clearPushing ::
            PushAction.resume ::
            (if has_push_end then [PushAction.pushEndHook] else []))))) := by
    simp [push_full_trace, push_sync_trace]
  have hT2 : push_full_trace target_only object_events has_push_end order =
      (PushAction.pause :: (object_events.map PushAction.relocate ++
        ((List.range (push_sprite_count target_only)).map PushAction.schedule ++
          (order.map PushAction.complete ++ [PushAction.clearPushing])))) ++
        PushAction.resume :: (if has_push_end then [PushAction.pushEndHook] else []) := by
    simp [push_full_trace, push_sync_trace]
  have hp_nm : PushAction.pause ∉ (object_events.map PushAction.relocate ++
      ((List.range (push_sprite_count target_only)).map PushAction.schedule ++
        (order.map PushAction.complete ++ (PushAction.clearPushing ::
          PushAction.resume ::
          (if has_push_end then [PushAction.pushEndHook] else []))))) := by
    cases has_push_end <;> simp
  have hr_nmL : PushAction.resume ∉ (PushAction.pause ::
      (object_events.map PushAction.relocate ++
        ((List.range (push_sprite_count target_only)).map PushAction.schedule ++
          (order.map PushAction.complete ++ [PushAction.clearPushing])))) := by
    simp
  have hr_nmR : PushAction.resume ∉
      (if has_push_end then [PushAction.pushEndHook] else []) := by
    cases has_push_end <;> simp
  refine ⟨by decide, ?_, ?_, ?_, ?_, ?_⟩
  · rw [hT1, List.nil_append, List.count_cons_self, List.count_eq_zero.mpr hp_nm]
  · rw [hT2, List.count_append, List.count_cons_self,
      List.count_eq_zero.mpr hr_nmL, List.count_eq_zero.mpr hr_nmR]
  · intro pre post hsplit e
    obtain ⟨hpre, -⟩ := single_occurrence_split (List.not_mem_nil _) hp_nm
      (hT1.symm.trans hsplit)
    rw [hpre]
    exact List.not_mem_nil _
  · intro pre post hsplit i hi
    obtain ⟨hpre, -⟩ := single_occurrence_split hr_nmL hr_nmR (hT2.symm.trans hsplit)
    rw [hpre]
    have hio : i ∈ order := hperm.mem_iff.mpr (List.mem_range.mpr hi)
    refine List.mem_cons.mpr (Or.inr (List.mem_append.mpr (Or.inr
      (List.mem_append.mpr (Or.inr (List.mem_append.mpr (Or.inl ?_)))))))
    exact List.mem_map.mpr ⟨i, hio, rfl⟩
  · intro pre post hsplit
    cases has_push_end with
    | false =>
      exfalso
      have hmem : PushAction.pushEndHook ∈
          push_full_trace target_only object_events false order := by
        rw [hsplit]
        simp
      rw [hT1] at hmem
      revert hmem
      simp
    | true =>
      have hT3 : push_full_trace target_only object_events true order =
          (PushAction.pause :: (object_events.map PushAction.relocate ++
            ((List.range (push_sprite_count target_only)).map PushAction.schedule ++
              (order.map PushAction.complete ++
                [PushAction.clearPushing, PushAction.resume])))) ++
            PushAction.pushEndHook :: [] := by
        simp [push_full_trace, push_sync_trace]
      have hh_nmL : PushAction.pushEndHook ∉ (PushAction.pause ::
          (object_events.map PushAction.relocate ++
            ((List.range (push_sprite_count target_only)).map PushAction.schedule ++
              (order.map PushAction.complete ++
                [PushAction.clearPushing, PushAction.resume])))) := by
        simp
      obtain ⟨hpre, -⟩ := single_occurrence_split hh_nmL (List.not_mem_nil _)
        (hT3.symm.trans hsplit)
      rw [hpre]
      simp

/-- Witness for C6: the one-sprite target-only trace with the single
completion arriving. -/
theorem push_trace_barrier_witness :
    ([0] : List Nat).Perm (List.range (push_sprite_count true)) ∧
    ((push_full_trace true [0] true [0]).count PushAction.pause = 1 ∧
      (push_full_trace true [0] true [0]).count PushAction.resume = 1) :=
  ⟨by decide,
    ⟨(push_trace_barrier true [0] true [0] (by decide)).2.1,
      (push_trace_barrier true [0] true [0] (by decide)).2.2.1⟩⟩

end GoldenSun
